import Mathlib

/-!
Logrun: a shallow embedding of `src/logrun.c`.

The definitions below follow `logrun.c` function by function.  System calls
whose results come from the environment (`waitpid`, `select`, `read`,
`gettimeofday`) take their results from explicit inputs; output to the three
streams (`stdout`, `stderr`, the log file `fp`) is recorded as an event trace.
C `int` / `long long` values are modelled by `Int` (no value in the modelled
paths comes near the machine limits), a `char` buffer by `List Char`.
-/

namespace Logrun

/-- A sequence of C `char`s (the contents of a buffer or of a string without
its terminator). -/
abbrev Bytes := List Char

/-! ## Exit-status mapping (`main`, lines 616-641) -/

/-- The status macros of `<sys/wait.h>` and `strsignal` of `<string.h>`.
They belong to the platform, not to the repository, so the model takes them
as a parameter. -/
structure WaitMacros where
  WIFEXITED : Int → Bool
  WEXITSTATUS : Int → Int
  WIFSIGNALED : Int → Bool
  WTERMSIG : Int → Int
  WCOREDUMP : Int → Bool
  strsignal : Nat → Bytes

/-- The usual encoding of a wait status (Linux, the BSDs): low seven bits the
terminating signal, bit 7 the core flag, bits 8-15 the exit code.  Used to
evaluate the model on concrete statuses. -/
def unixWait : WaitMacros where
  WIFEXITED := fun s => s % 128 == 0
  WEXITSTATUS := fun s => (s / 256) % 256
  WIFSIGNALED := fun s => 1 ≤ s % 128 && s % 128 ≤ 126
  WTERMSIG := fun s => s % 128
  WCOREDUMP := fun s => (s / 128) % 2 == 1
  strsignal := fun n =>
    if n = 9 then "Killed".toList
    else if n = 11 then "Segmentation fault".toList
    else if n = 15 then "Terminated".toList
    else "Unknown signal ".toList ++ (Nat.repr n).toList

/-- The `printf` conversion `%u`. -/
def fmtU (n : Nat) : Bytes := (Nat.repr n).toList

/-- The C cast `(unsigned)x` of an `int`. -/
def toUnsigned (x : Int) : Nat := (x % 4294967296).toNat

/-- The final part of `main`: from the wait status `xstatus` left by the reap
loop, the line written to `stderr` and the log by `demit`, and the value
`xstatus2` that `main` returns. -/
def exitReport (W : WaitMacros) (xstatus : Int) : Bytes × Int :=
  if W.WIFEXITED xstatus then
    ("EXIT STATUS: ".toList ++ fmtU (toUnsigned (W.WEXITSTATUS xstatus))
        ++ "\n".toList,
      W.WEXITSTATUS xstatus)
  else if W.WIFSIGNALED xstatus then
    ("EXIT SIGNAL: ".toList ++ W.strsignal (toUnsigned (W.WTERMSIG xstatus))
        ++ (if W.WCOREDUMP xstatus then " (core dumped)".toList else "".toList)
        ++ "\n".toList,
      1)
  else
    ("EXIT STATUS UNKNOWN?\n".toList, 1)

/-- The exit status a parent observes when `main` returns `ret`: the low
eight bits. -/
def processExit (ret : Int) : Int := ret % 256

/-! ## The reap loop (`main`, lines 587-613) -/

/-- The delay of the reap loop, in microseconds. -/
def wait_reap : Nat := 50000

/-- One outcome of `waitpid(-1, &xstatus1, WNOHANG)`: the returned value and
the status it stored. -/
structure Poll where
  reaped : Int
  status : Int
deriving DecidableEq, Repr

/-- The variables of the reap loop, with two counters of the calls made so far
(`waitpid` and `usleep(wait_reap)`) and a flag set when the inner `for (;;)`
has executed its `break`. -/
structure Reap where
  xstatus : Int
  waited : Bool
  polls : Nat
  delays : Nat
  stopped : Bool
deriving DecidableEq, Repr

/-- The state on entry to the reap loop: `xstatus = 0; waited = 0;`. -/
def reapInit : Reap :=
  { xstatus := 0, waited := false, polls := 0, delays := 0, stopped := false }

/-- One pass through the body of the inner `for (;;)` with poll outcome `p`. -/
def reapStep (child : Int) (st : Reap) (p : Poll) : Reap :=
  let xstatus := if p.reaped = child then p.status else st.xstatus
  if p.reaped < 0 then
    if st.waited then
      { xstatus := xstatus, waited := st.waited, polls := st.polls + 1,
        delays := st.delays, stopped := true }
    else
      { xstatus := xstatus, waited := true, polls := st.polls + 1,
        delays := st.delays + 1, stopped := false }
  else
    { xstatus := xstatus, waited := false, polls := st.polls + 1,
      delays := st.delays, stopped := false }

/-- The inner `for (;;)` run against the poll outcomes `ps`, in order: it
consumes outcomes until it breaks; outcomes after the break are never asked
for.  A result with `stopped = false` is a loop still polling after `ps`. -/
def reapLoop (child : Int) : Reap → List Poll → Reap
  | st, [] => st
  | st, p :: ps => if st.stopped then st else reapLoop child (reapStep child st p) ps

/-- A poll that failed: `waitpid` returned a negative value. -/
def Poll.failed (p : Poll) : Prop := p.reaped < 0

instance (p : Poll) : Decidable p.failed := by unfold Poll.failed; infer_instance

/-- No two polls in a row fail. -/
def NoDoubleFail (ps : List Poll) : Prop :=
  List.Chain' (fun a b => ¬ (a.failed ∧ b.failed)) ps

/-- The status the loop holds after the polls `ps`, starting from `x`: that of
the last poll that returned the child. -/
def lastChildStatus (child : Int) (x : Int) (ps : List Poll) : Int :=
  ps.foldl (fun acc p => if p.reaped = child then p.status else acc) x

/-- A sequence of `2 * n` poll outcomes in which a failed poll and a poll that
returns another child of the program (process id 7) take turns. -/
def alternating : Nat → List Poll
  | 0 => []
  | n + 1 => ⟨-1, 0⟩ :: ⟨7, 0⟩ :: alternating n

/-- Between two polls made one after the other, at least one returned a
process id. -/
def NoTwoFailures (ps : List Poll) : Prop :=
  List.Chain' (fun a b => 0 < a.reaped ∨ 0 < b.reaped) ps

/-- The number of failed polls in `ps`. -/
def failures (ps : List Poll) : Nat := ps.countP (fun p => decide (p.reaped < 0))

/-! ## Streams, events and `time_emit` -/

/-- The two pipes from the child: `pout` (its stdout) and `perr` (its stderr). -/
inductive Chan where
  | out
  | err
deriving DecidableEq, Repr

/-- The three `FILE *` destinations of `main`. -/
inductive Stream where
  | stdout
  | stderr
  | fp
deriving DecidableEq, Repr

/-- The value of `errno` after a failed call, as far as the program looks at it. -/
inductive Errno where
  | EAGAIN
  | EINTR
  | other (n : Nat)
deriving DecidableEq, Repr

/-- The test `errno == EAGAIN || errno == EINTR`. -/
def Errno.transient : Errno → Bool
  | .EAGAIN => true
  | .EINTR => true
  | .other _ => false

/-- What `select` reported: a failure (with the text `strerror(errno)` gives),
or the members of `rfds` it left set.  Its return value is the number of
descriptors left set. -/
inductive SelectResult where
  | fail (e : Errno) (msg : Bytes)
  | ready (outReady errReady : Bool)
deriving DecidableEq, Repr

/-- What `read(fd, buf, sizeof buf)` reported: a failure, or the bytes it put
in `buf` (its return value is their number, 0 at end of file). -/
inductive ReadResult where
  | fail (e : Errno) (msg : Bytes)
  | data (chunk : Bytes)
deriving DecidableEq, Repr

/-- The observable calls of the main loop, in program order.  A `write` is an
`fwrite` or `vfprintf` on a stream; its second field records where the bytes
came from: `some c` when they are the contents `read` put in `buf` from
channel `c`, `none` when the program formatted them itself. -/
inductive Ev where
  | fflush (f : Stream)
  | ustime (t : Int)
  | write (f : Stream) (src : Option Chan) (bytes : Bytes)
  | select (watchOut watchErr : Bool) (timeout : Option (Int × Int))
  | read (c : Chan) (r : ReadResult)
  | close (c : Chan)
  | usleep (usec : Nat)
deriving DecidableEq, Repr

/-- The banner line `bar`: 72 equals signs. -/
def bar : Bytes := List.replicate 72 '='

/-- The function `demit`: the same formatted text to two streams. -/
def demit (f1 f2 : Stream) (text : Bytes) : List Ev :=
  [Ev.write f1 none text, Ev.write f2 none text]

/-- One reading of the clock inside `time_emit`: `ustime(&tsec)` and the text
`strftime` makes of `tsec` (or the fallback text). -/
structure Clock where
  t : Int
  stamp : Bytes
deriving DecidableEq, Repr

/-- The fields of `struct rusage` that `time_emit` prints. -/
structure Rusage where
  utime_sec : Int
  utime_usec : Int
  stime_sec : Int
  stime_usec : Int
deriving DecidableEq, Repr

/-- The `printf` conversion `%03u`: at least three digits, padded with zeros. -/
def fmt03u (n : Nat) : Bytes :=
  List.replicate (3 - (fmtU n).length) '0' ++ fmtU n

/-- The function `time_emit`.  `tstart` is its static variable; the result is
the new value of `tstart` and the writes made.  `ru` is what `getrusage`
returned, `none` in a build without `HAVE_GETRUSAGE`. -/
def time_emit (tstart : Int) (f1 f2 : Stream) (first norusage : Bool) (eol : Bytes)
    (c : Clock) (ru : Option Rusage) : Int × List Ev :=
  let t := c.t
  let tstart := if first then t else tstart
  let ev1 := demit f1 f2 ("TIME: ".toList ++ c.stamp ++ eol)
  if first then (tstart, ev1)
  else
    let dt := if t < tstart then 0 else t - tstart
    let ev2 := demit f1 f2 ("ELAPSED TIME:  ".toList
      ++ fmtU (toUnsigned (Int.tdiv dt 1000000)) ++ ".".toList
      ++ fmt03u (toUnsigned (Int.tdiv (Int.tmod dt 1000000 + 500) 1000))
      ++ " sec".toList ++ eol)
    let ev3 :=
      match norusage, ru with
      | false, some r =>
        demit f1 f2 ("USER CPU TIME: ".toList
          ++ fmtU (toUnsigned r.utime_sec) ++ ".".toList
          ++ fmt03u (toUnsigned (Int.tdiv (r.utime_usec + 500) 1000))
          ++ " sec".toList ++ eol
          ++ "SYS CPU TIME:  ".toList
          ++ fmtU (toUnsigned r.stime_sec) ++ ".".toList
          ++ fmt03u (toUnsigned (Int.tdiv (r.stime_usec + 500) 1000))
          ++ " sec".toList ++ eol)
      | _, _ => []
    (tstart, ev1 ++ ev2 ++ ev3)

/-- The line `time_emit` writes for an elapsed time of `dt` microseconds
(lines 279-283). -/
def elapsedLine (dt : Int) (eol : Bytes) : Bytes :=
  "ELAPSED TIME:  ".toList
    ++ fmtU (toUnsigned (Int.tdiv dt 1000000)) ++ ".".toList
    ++ fmt03u (toUnsigned (Int.tdiv (Int.tmod dt 1000000 + 500) 1000))
    ++ " sec".toList ++ eol

/-! ## The main loop (`main`, lines 491-614) -/

/-- The variables of `main` that the loop reads and changes: whether each
pipe's read end is still open (`pout[0] >= 0`, `perr[0] >= 0`), the time of the
last clock message, the timeout handed to `select` (seconds, microseconds) and
the static `tstart` of `time_emit`. -/
structure Vars where
  pout : Bool
  perr : Bool
  tclocklast : Int
  tvto : Int × Int
  tstart : Int
deriving DecidableEq, Repr

/-- Whether the read end of channel `c` is open. -/
def Vars.isOpen (s : Vars) : Chan → Bool
  | .out => s.pout
  | .err => s.perr

/-- What the environment answers during one pass of the loop: the clock at
line 497, the clock inside `time_emit`, the result of `select` and the result
of `read`.  A pass uses only the answers to the calls it makes. -/
structure IterIn where
  tnow : Int
  clk : Clock
  sel : SelectResult
  rd : ReadResult
deriving DecidableEq, Repr

/-- How a pass of the loop ends: back to the top (`continue` or the end of the
body), or into the reap loop and out (`break`). -/
inductive Next where
  | again
  | reap
deriving DecidableEq, Repr

/-- The `switch (doclock)` of lines 502-506: seconds between clock messages. -/
def clockInterval (doclock : Nat) : Int :=
  match doclock with
  | 1 => 300
  | 2 => 60
  | _ => 20

/-- Lines 515-517: the clock message, a banner line, the time and elapsed time
from `time_emit`, and a banner line, each line ended by `\r\n`. -/
def clockMessage (tstart : Int) (clk : Clock) : List Ev :=
  demit .stderr .fp ("\r\n".toList ++ bar ++ "\r\n".toList)
    ++ (time_emit tstart .stderr .fp false true "\r\n".toList clk none).2
    ++ demit .stderr .fp (bar ++ "\r\n".toList)

/-- Lines 493-524.  The result is the new variables, the calls made, and
whether the `continue` of line 518 was executed (a clock message was
written). -/
def clockPart (doclock : Nat) (s : Vars) (inp : IterIn) : Vars × List Ev × Bool :=
  if doclock ≠ 0 then
    let tnow := inp.tnow
    let tclocklast := if s.tclocklast > tnow then tnow else s.tclocklast
    let dt := clockInterval doclock * 1000000 + tclocklast - tnow
    if dt ≤ 0 then
      ({ s with tclocklast := tnow }, [Ev.ustime tnow] ++ clockMessage s.tstart inp.clk, true)
    else
      ({ s with tclocklast := tclocklast,
                tvto := (Int.tdiv dt 1000000, Int.tmod dt 1000000) },
        [Ev.ustime tnow], false)
  else (s, [], false)

/-- The time left until the next clock message, in microseconds, as lines
497-507 compute it from the stored time of the last message and the clock
reading `tnow`: a stored time later than `tnow` counts as `tnow`. -/
def remainingTime (doclock : Nat) (s : Vars) (tnow : Int) : Int :=
  clockInterval doclock * 1000000 + min s.tclocklast tnow - tnow

/-- Variables of a loop whose last clock message was at time 100, both pipes
open. -/
def varsAt100 : Vars :=
  { pout := true, perr := true, tclocklast := 100, tvto := (0, 0), tstart := 0 }

/-- Answers of a pass in which the clock reads 50 and `select` times out. -/
def clockAt50 : IterIn :=
  { tnow := 50, clk := ⟨50, []⟩, sel := .ready false false, rd := .data [] }

/-- Lines 570-585: what is done with the result `i` of the read (or of the
`snprintf` that replaced it), the stream `o` and the contents of `buf`. -/
def passAlong (s : Vars) (i : Int) (o : Stream) (src : Option Chan) (buf : Bytes) :
    Vars × List Ev :=
  let r1 : Vars × List Ev :=
    if i = 0 then
      if o = .stderr then ({ s with perr := false }, [Ev.close .err])
      else if o = .stdout then ({ s with pout := false }, [Ev.close .out])
      else (s, [])
    else (s, [])
  let ev2 : List Ev :=
    if i > 0 then
      [Ev.write o src (buf.take i.toNat), Ev.write .fp src (buf.take i.toNat)]
        ++ (if o = .stdout then [Ev.fflush .stdout] else [])
    else []
  (r1.1, r1.2 ++ ev2)

/-- Lines 545-586 once a descriptor is known to be ready: the read on channel
`c` with `o` the matching stream, the handling of its errors, and the passing
along of what was read. -/
def readPart (s : Vars) (c : Chan) (o : Stream) (rd : ReadResult) :
    Vars × List Ev × Bool :=
  match rd with
  | .fail e msg =>
    if e.transient then
      (s, [Ev.read c rd, Ev.usleep 250000], true)
    else
      let buf := "read failed: ".toList ++ msg ++ "\r\n".toList
      let r := passAlong s buf.length .stderr none buf
      (r.1, [Ev.read c rd, Ev.usleep 250000] ++ r.2, false)
  | .data chunk =>
    let r := passAlong s chunk.length o (some c) chunk
    (r.1, [Ev.read c rd] ++ r.2, false)

/-- Lines 526-586.  The result is the new variables, the calls made, and
whether a `continue` was executed.  `select` returns a positive count exactly
when it left a watched descriptor set in `rfds`, so the test `i > 0` and the
two `FD_ISSET` tests are taken together. -/
def selectPart (doclock : Nat) (s : Vars) (inp : IterIn) : Vars × List Ev × Bool :=
  let sel := Ev.select s.pout s.perr (if doclock ≠ 0 then some s.tvto else none)
  match inp.sel with
  | .fail e msg =>
    (s,
      [sel] ++ (if e.transient then []
                else demit .stderr .fp ("select() failed: ".toList ++ msg ++ "\r\n".toList))
        ++ [Ev.usleep 250000],
      true)
  | .ready outReady errReady =>
    if s.pout && outReady then
      let r := readPart s .out .stdout inp.rd
      (r.1, [sel] ++ r.2.1, r.2.2)
    else if s.perr && errReady then
      let r := readPart s .err .stderr inp.rd
      (r.1, [sel] ++ r.2.1, r.2.2)
    else (s, [sel], false)

/-- One pass through the body of the outer `for (;;)`, up to the test of line
587: the new variables, the calls made, and where control goes next. -/
def loopBody (doclock : Nat) (s : Vars) (inp : IterIn) : Vars × List Ev × Next :=
  let c := clockPart doclock s inp
  if c.2.2 then (c.1, [Ev.fflush .fp] ++ c.2.1, .again)
  else
    let r := selectPart doclock c.1 inp
    if r.2.2 then (r.1, [Ev.fflush .fp] ++ c.2.1 ++ r.2.1, .again)
    else if !r.1.perr && !r.1.pout then (r.1, [Ev.fflush .fp] ++ c.2.1 ++ r.2.1, .reap)
    else (r.1, [Ev.fflush .fp] ++ c.2.1 ++ r.2.1, .again)

/-- A run of the outer loop: the variables, every call made so far, and
whether the loop has left for the reap loop. -/
structure Run where
  vars : Vars
  trace : List Ev
  next : Next
deriving DecidableEq, Repr

/-- The outer `for (;;)` run against the environment's answers `inps`, one per
pass, until it leaves for the reap loop; answers after that are not used. -/
def runLoop (doclock : Nat) : Run → List IterIn → Run
  | r, [] => r
  | r, inp :: inps =>
    match r.next with
    | .reap => r
    | .again =>
      let b := loopBody doclock r.vars inp
      runLoop doclock { vars := b.1, trace := r.trace ++ b.2.1, next := b.2.2 } inps

/-- The variables on entry to the loop: both pipes open, `tclocklast` the clock
read at line 449, `tvto` zero, `tstart` as the header's `time_emit` left it. -/
def loopInit (t0 tstart : Int) : Run :=
  { vars := { pout := true, perr := true, tclocklast := t0, tvto := (0, 0), tstart := tstart },
    trace := [], next := .again }

/-- The variables after `close` on the read end of channel `c`. -/
def Vars.closeChan (s : Vars) : Chan → Vars
  | .out => { s with pout := false }
  | .err => { s with perr := false }

/-- The other channel. -/
def Chan.other : Chan → Chan
  | .out => .err
  | .err => .out

/-- Events that neither touch a pipe nor carry bytes read from one: flushes,
clock readings, delays, and text the program formats itself for `stderr` and
the log. -/
def Ev.isNote : Ev → Bool
  | .fflush _ => true
  | .ustime _ => true
  | .usleep _ => true
  | .write .stderr none _ => true
  | .write .fp none _ => true
  | _ => false

/-- Events that write nothing and touch no pipe: flushes, clock readings and
delays. -/
def Ev.isQuiet : Ev → Bool
  | .fflush _ => true
  | .ustime _ => true
  | .usleep _ => true
  | _ => false

/-- Whether a `select` with the given descriptor set watches channel `c`. -/
def watches (c : Chan) (watchOut watchErr : Bool) : Bool :=
  match c with
  | .out => watchOut
  | .err => watchErr

/-- Answers of a pass in which `select` reports the child's stdout ready and
the read is interrupted (`EINTR`). -/
def interruptedRead : IterIn :=
  { tnow := 0, clk := ⟨0, []⟩, sel := .ready true false, rd := .fail .EINTR [] }

/-- Answers of a pass in which `select` reports the given channels ready and
the read returns `chunk`. -/
def readAnswer (outReady errReady : Bool) (chunk : Bytes) : IterIn :=
  { tnow := 0, clk := ⟨0, []⟩, sel := .ready outReady errReady, rd := .data chunk }

/-- The chunks a trace shows as read, with a positive count, from channel `c`. -/
def chunksRead (c : Chan) (tr : List Ev) : List Bytes :=
  tr.filterMap fun e =>
    match e with
    | .read c' (.data chunk) => if c' = c ∧ chunk ≠ [] then some chunk else none
    | _ => none

/-- The byte strings a trace shows as written to stream `f`, whatever their
origin. -/
def written (f : Stream) (tr : List Ev) : List Bytes :=
  tr.filterMap fun e =>
    match e with
    | .write f' _ b => if f' = f then some b else none
    | _ => none

/-- The byte strings a trace shows as written to stream `f` out of what was
read from channel `c`. -/
def writtenFrom (c : Chan) (f : Stream) (tr : List Ev) : List Bytes :=
  tr.filterMap fun e =>
    match e with
    | .write f' (some c') b => if f' = f ∧ c' = c then some b else none
    | _ => none

/-- The terminal stream that belongs to a channel. -/
def Chan.terminal : Chan → Stream
  | .out => .stdout
  | .err => .stderr

/-! ## `spacepaste` (lines 307-338) -/

/-- The call `memcpy(buf + pos, src, l)` with `l` the length of `src`. -/
def memcpyAt (buf : Bytes) (pos : Nat) (src : Bytes) : Bytes :=
  buf.take pos ++ src ++ buf.drop (pos + src.length)

/-- One pass through the body of the `for` loop of `spacepaste` with the
argument `arg` (its characters, without the terminator): the buffer and `pos`
before and after. -/
def spacepasteStep (buflen : Int) (st : Bytes × Int) (arg : Bytes) : Bytes × Int :=
  let buf := st.1
  let pos := st.2
  let buf1 := if pos > 0 then (if pos < buflen then buf.set pos.toNat ' ' else buf) else buf
  let pos1 := if pos > 0 then pos + 1 else pos
  let l : Int := arg.length
  let buf2 := if pos1 + l < buflen then memcpyAt buf1 pos1.toNat arg else buf1
  (buf2, pos1 + l)

/-- The function `spacepaste`.  `argv` lists the strings up to the first null
pointer of the vector; the loop runs over the first `argc` of them.  The result
is the returned value and the buffer. -/
def spacepaste (buf : Bytes) (buflen : Int) (argv : List Bytes) (argc : Int) : Int × Bytes :=
  let r := (argv.take argc.toNat).foldl (spacepasteStep buflen) (buf, 0)
  if r.2 < buflen then (r.2, r.1.set r.2.toNat (Char.ofNat 0)) else (-1, r.1)

/-- The arguments joined with one space between each two neighbours. -/
def spaceJoined (argv : List Bytes) : Bytes := List.intercalate [' '] argv

/-- What the loop of `spacepaste` has put together after the arguments `argv`,
given what it had before: a space goes in front of an argument when something
is there already. -/
def pastedFrom (acc : Bytes) (argv : List Bytes) : Bytes :=
  argv.foldl (fun acc a => (if acc.length > 0 then acc ++ [' '] else acc) ++ a) acc

/-- What the loop of `spacepaste` puts together from the arguments `argv`. -/
def pasted (argv : List Bytes) : Bytes := pastedFrom [] argv

/-! ## `mkfile` (lines 126-217) -/

/-- The number a string of decimal digits stands for. -/
def digitsValue (cs : Bytes) : Nat := cs.foldl (fun acc c => acc * 10 + (c.toNat - 48)) 0

/-- The test `isspace` of the C library, in the C locale. -/
def isspace (c : Char) : Bool :=
  c == ' ' || c == '\t' || c == '\n' || c == Char.ofNat 11 || c == Char.ofNat 12 || c == '\r'

/-- The call `strtoul(s, NULL, 10)` of the C library, for an `unsigned long`
whose largest value is `ULONG_MAX`: white space is skipped, a sign is taken,
then the longest run of decimal digits is converted; without digits the result
is 0, beyond the range it is `ULONG_MAX`, and after a minus sign the value is
negated within the type. -/
def strtoul (ULONG_MAX : Nat) (s : Bytes) : Nat :=
  let s1 := s.dropWhile isspace
  let s2 := match s1 with
    | '-' :: r => r
    | '+' :: r => r
    | _ => s1
  let digits := s2.takeWhile Char.isDigit
  if digits = [] then 0
  else if ULONG_MAX < digitsValue digits then ULONG_MAX
  else if s1.head? = some '-' then (ULONG_MAX + 1 - digitsValue digits) % (ULONG_MAX + 1)
  else digitsValue digits

/-- The constant `opfx`. -/
def opfx : Bytes := "Out_".toList

/-- The `printf` conversions `%02u` and `%02lu`: at least two digits, padded
with zeros. -/
def fmt02u (n : Nat) : Bytes :=
  List.replicate (2 - (fmtU n).length) '0' ++ fmtU n

/-- The prefix `mkfile` makes of the date (lines 152-154), from the fields
`tm_year`, `tm_mon` and `tm_mday` of the local time. -/
def mkfilePrefix (tm_year tm_mon tm_mday : Int) : Bytes :=
  opfx ++ fmt02u (toUnsigned (Int.tmod tm_year 100)) ++ fmt02u (toUnsigned (tm_mon + 1))
    ++ fmt02u (toUnsigned tm_mday) ++ "_".toList

/-- One pass through the body of the `readdir` loop of `mkfile` (lines
168-173) with the entry name `d_name`: the index `n` before and after. -/
def mkfileStep (ULONG_MAX : Nat) (pfx : Bytes) (n : Nat) (d_name : Bytes) : Nat :=
  if pfx.isPrefixOf d_name then
    if strtoul ULONG_MAX (d_name.drop pfx.length) ≠ ULONG_MAX
        ∧ strtoul ULONG_MAX (d_name.drop pfx.length) ≥ n then
      strtoul ULONG_MAX (d_name.drop pfx.length) + 1
    else n
  else n

/-- The index `mkfile` arrives at after reading the directory entries
`entries` in order, from `n = 1`. -/
def mkfileIndex (ULONG_MAX : Nat) (pfx : Bytes) (entries : List Bytes) : Nat :=
  entries.foldl (mkfileStep ULONG_MAX pfx) 1

/-- The file name `mkfile` builds from the prefix and the index. -/
def mkfileName (pfx : Bytes) (n : Nat) : Bytes := pfx ++ fmt02u n

/-- The function `mkfile` once the date is known and the directory has been
opened: the path of the file created, or `none` when it fails (the prefix or
the path does not fit its buffer, or a file of the chosen name exists, which
makes the exclusive `fopen` fail). -/
def mkfile (ULONG_MAX : Nat) (dir : Bytes) (tm_year tm_mon tm_mday : Int)
    (entries : List Bytes) : Option Bytes :=
  let pfx := mkfilePrefix tm_year tm_mon tm_mday
  if pfx.length ≥ 32 then none
  else
    let n := mkfileIndex ULONG_MAX pfx entries
    let buf := dir ++ "/".toList ++ pfx ++ fmt02u n
    if buf.length ≥ 2048 then none
    else if mkfileName pfx n ∈ entries then none
    else some buf

/-- The numbers `mkfile` takes into account: those `strtoul` reads after the
prefix in the entries that begin with it, other than `ULONG_MAX`. -/
def countedNumbers (ULONG_MAX : Nat) (pfx : Bytes) (entries : List Bytes) : List Nat :=
  ((entries.filter (fun e => pfx.isPrefixOf e)).map
    (fun e => strtoul ULONG_MAX (e.drop pfx.length))).filter (fun nf => nf ≠ ULONG_MAX)


/-- The value of `ULONG_MAX` where `unsigned long` has 64 bits. -/
def ulongMax64 : Nat := 18446744073709551615

/-- The prefix of 30 October 2025: `Out_251030_`. -/
def dayPrefix : Bytes := mkfilePrefix 125 9 30

/-- A directory with two files of the day, one with a suffix, and two other
entries. -/
def listingPlain : List Bytes :=
  ["Out_251030_01".toList, "Out_251030_07.log".toList, "notes".toList, "Out_251029_44".toList]

/-- A directory whose one file of the day carries a number too large for an
`unsigned long`. -/
def listingOverflow : List Bytes := ["Out_251030_99999999999999999999999".toList]

/-- A directory with the files of the day numbered `ULONG_MAX - 1` and
`ULONG_MAX`. -/
def listingTop : List Bytes :=
  ["Out_251030_18446744073709551614".toList, "Out_251030_18446744073709551615".toList]

/-- The channel the pass reads from, as the environment's answers decide it:
none when a clock message is due (enabled, and no time remains), none when
`select` fails or reports nothing ready on an open channel, the child's stdout
when it is open and reported ready, otherwise the child's stderr when it is
open and reported ready. -/
def readChannel (doclock : Nat) (s : Vars) (inp : IterIn) : Option Chan :=
  if doclock ≠ 0 ∧ remainingTime doclock s inp.tnow ≤ 0 then none
  else
    match inp.sel with
    | .fail _ _ => none
    | .ready outReady errReady =>
      if s.pout && outReady then some .out
      else if s.perr && errReady then some .err
      else none

/-- The chunk the environment hands to the program from channel `c` in a pass:
the bytes its `read` answer carries, when the pass reads from `c` and the
answer is a positive number of bytes. -/
def passChunk (c : Chan) (doclock : Nat) (s : Vars) (inp : IterIn) : List Bytes :=
  if readChannel doclock s inp = some c then
    match inp.rd with
    | .data chunk => if chunk = [] then [] else [chunk]
    | .fail _ _ => []
  else []

/-- The chunks the environment hands to the program from channel `c` over a
run, pass by pass, in order. -/
def delivered (c : Chan) (doclock : Nat) : Run → List IterIn → List Bytes
  | _, [] => []
  | r, inp :: inps =>
    match r.next with
    | .reap => []
    | .again =>
      passChunk c doclock r.vars inp
        ++ delivered c doclock
            { vars := (loopBody doclock r.vars inp).1,
              trace := r.trace ++ (loopBody doclock r.vars inp).2.1,
              next := (loopBody doclock r.vars inp).2.2 } inps

/-- Answers of five passes: `ab` arrives on the child's stdout, `E` on its
stderr, a read on stdout is interrupted, `cd` arrives on stdout, and stdout
reaches end of file. -/
def demoAnswers : List IterIn :=
  [readAnswer true true "ab".toList, readAnswer false true "E".toList, interruptedRead,
   readAnswer true false "cd".toList, readAnswer true false []]

/-- Byte fidelity of a trace: what it shows as written to the terminal's stdout
is, chunk for chunk and in order, what it shows as read from the child's
stdout, and so are the writes to the log made out of those reads; the same for
the child's stderr, the terminal's stderr and the log; and no chunk goes to the
terminal stream of the other channel. -/
def Faithful (tr : List Ev) : Prop :=
  written .stdout tr = chunksRead .out tr ∧
  writtenFrom .out .fp tr = chunksRead .out tr ∧
  writtenFrom .err .stderr tr = chunksRead .err tr ∧
  writtenFrom .err .fp tr = chunksRead .err tr ∧
  writtenFrom .out .stderr tr = [] ∧
  writtenFrom .err .stdout tr = []

/-! ## Lemmas on the reap loop -/

theorem reapLoop_nil (child : Int) (st : Reap) : reapLoop child st [] = st := rfl

theorem reapLoop_cons (child : Int) (st : Reap) (p : Poll) (ps : List Poll) :
    reapLoop child st (p :: ps) =
      if st.stopped then st else reapLoop child (reapStep child st p) ps := rfl

theorem reapLoop_of_stopped (child : Int) (st : Reap) (ps : List Poll)
    (h : st.stopped = true) : reapLoop child st ps = st := by
  cases ps with
  | nil => rfl
  | cons p ps => simp [reapLoop_cons, h]

theorem reapStep_stopped_iff (child : Int) (st : Reap) (p : Poll) :
    (reapStep child st p).stopped = true ↔ st.waited = true ∧ p.failed := by
  by_cases h1 : p.reaped < 0 <;> by_cases h2 : st.waited = true <;>
    simp [reapStep, Poll.failed, h1, h2]

theorem reapStep_waited_iff (child : Int) (st : Reap) (p : Poll) :
    (reapStep child st p).waited = true ↔ p.failed := by
  by_cases h1 : p.reaped < 0 <;> by_cases h2 : st.waited = true <;>
    simp [reapStep, Poll.failed, h1, h2]

theorem reapStep_polls (child : Int) (st : Reap) (p : Poll) :
    (reapStep child st p).polls = st.polls + 1 := by
  unfold reapStep
  split_ifs <;> rfl

theorem reapStep_xstatus (child : Int) (st : Reap) (p : Poll) :
    (reapStep child st p).xstatus = if p.reaped = child then p.status else st.xstatus := by
  unfold reapStep
  split_ifs <;> rfl

theorem reapStep_delays (child : Int) (st : Reap) (p : Poll) :
    (reapStep child st p).delays =
      st.delays + (if p.failed ∧ st.waited = false then 1 else 0) := by
  by_cases h1 : p.reaped < 0 <;> by_cases h2 : st.waited = true <;>
    simp [reapStep, Poll.failed, h1, h2]

/-- While the loop has not stopped it has consumed every outcome offered, has
delayed once per failed poll, holds the status of the last poll that returned
the child, and has its retry flag set exactly when the latest poll failed. -/
theorem reapLoop_running (child : Int) (ps : List Poll) (st : Reap)
    (hst : st.stopped = false) (hr : (reapLoop child st ps).stopped = false) :
    (reapLoop child st ps).polls = st.polls + ps.length ∧
    (reapLoop child st ps).delays = st.delays + ps.countP (fun p => decide p.failed) ∧
    (reapLoop child st ps).xstatus = lastChildStatus child st.xstatus ps ∧
    ((reapLoop child st ps).waited = true ↔
      (ps = [] ∧ st.waited = true) ∨ ∃ l, ps.getLast? = some l ∧ l.failed) := by
  induction ps generalizing st with
  | nil => simp [reapLoop_nil, lastChildStatus]
  | cons p ps ih =>
    rw [reapLoop_cons, hst] at hr ⊢
    simp only [Bool.false_eq_true, if_false] at hr ⊢
    have hs : (reapStep child st p).stopped = false := by
      by_contra hne
      have hne' : (reapStep child st p).stopped = true := by simpa using hne
      rw [reapLoop_of_stopped child _ ps hne'] at hr
      rw [hr] at hne'
      exact Bool.noConfusion hne'
    obtain ⟨h1, h2, h3, h4⟩ := ih (reapStep child st p) hs hr
    have hw : ¬ (st.waited = true ∧ p.failed) := by
      intro hc
      have := (reapStep_stopped_iff child st p).2 hc
      rw [hs] at this
      exact Bool.noConfusion this
    refine ⟨?_, ?_, ?_, ?_⟩
    · rw [h1, reapStep_polls, List.length_cons]; omega
    · rw [h2, reapStep_delays, List.countP_cons]
      by_cases hf : p.failed
      · have hwf : st.waited = false := by
          cases hwv : st.waited with
          | false => rfl
          | true => exact absurd ⟨hwv, hf⟩ hw
        simp [hf, hwf]; omega
      · simp [hf]
    · rw [h3, reapStep_xstatus]; rfl
    · rw [h4, reapStep_waited_iff]
      cases ps with
      | nil => simp
      | cons q qs => simp [List.getLast?_cons_cons]

/-- The loop is still running after `ps` exactly when `ps` has no two failed
polls in a row (and does not open with a failure that follows an earlier one). -/
theorem reapLoop_running_iff (child : Int) (ps : List Poll) (st : Reap)
    (hst : st.stopped = false) :
    (reapLoop child st ps).stopped = false ↔
      (∀ p, ps.head? = some p → ¬ (st.waited = true ∧ p.failed)) ∧ NoDoubleFail ps := by
  induction ps generalizing st with
  | nil => simp [reapLoop_nil, hst, NoDoubleFail]
  | cons p ps ih =>
    rw [reapLoop_cons, hst]
    simp only [Bool.false_eq_true, if_false, List.head?_cons, Option.some.injEq, forall_eq']
    by_cases hc : st.waited = true ∧ p.failed
    · have hs := (reapStep_stopped_iff child st p).2 hc
      rw [reapLoop_of_stopped child _ ps hs, hs]
      simp [hc]
    · have hs : (reapStep child st p).stopped = false := by
        cases h : (reapStep child st p).stopped with
        | false => rfl
        | true => exact absurd ((reapStep_stopped_iff child st p).1 h) hc
      rw [ih _ hs]
      unfold NoDoubleFail
      rw [List.chain'_cons']
      simp only [reapStep_waited_iff]
      constructor
      · rintro ⟨h1, h2⟩
        exact ⟨hc, fun q hq => fun hpq => h1 q hq ⟨hpq.1, hpq.2⟩, h2⟩
      · rintro ⟨_, h1, h2⟩
        exact ⟨fun q hq hpq => h1 q hq hpq, h2⟩

/-- When the loop has stopped inside `ps`, it stopped at a failed poll `q`
met with the retry flag set, having run without stopping through the polls
before `q`. -/
theorem reapLoop_stopped_split (child : Int) (ps : List Poll) (st : Reap)
    (hst : st.stopped = false) (hr : (reapLoop child st ps).stopped = true) :
    ∃ pre q post, ps = pre ++ q :: post ∧
      (reapLoop child st pre).stopped = false ∧
      (reapLoop child st pre).waited = true ∧ q.failed ∧
      reapLoop child st ps = reapStep child (reapLoop child st pre) q := by
  induction ps generalizing st with
  | nil => rw [reapLoop_nil, hst] at hr; exact Bool.noConfusion hr
  | cons p ps ih =>
    rw [reapLoop_cons, hst] at hr
    simp only [Bool.false_eq_true, if_false] at hr
    cases hs : (reapStep child st p).stopped with
    | true =>
      obtain ⟨hw, hf⟩ := (reapStep_stopped_iff child st p).1 hs
      refine ⟨[], p, ps, rfl, by simpa [reapLoop_nil] using hst, by simpa [reapLoop_nil] using hw,
        hf, ?_⟩
      rw [reapLoop_cons, hst]
      simp only [Bool.false_eq_true, if_false, reapLoop_nil]
      exact reapLoop_of_stopped child _ ps hs
    | false =>
      obtain ⟨pre, q, post, hps, h1, h2, h3, h4⟩ := ih (reapStep child st p) hs hr
      refine ⟨p :: pre, q, post, by rw [hps]; rfl, ?_, ?_, h3, ?_⟩
      · rw [reapLoop_cons, hst]; simpa using h1
      · rw [reapLoop_cons, hst]; simpa using h2
      · rw [reapLoop_cons, hst, reapLoop_cons, hst]
        simpa using h4

theorem lastChildStatus_append (child x : Int) (l₁ l₂ : List Poll) :
    lastChildStatus child x (l₁ ++ l₂) = lastChildStatus child (lastChildStatus child x l₁) l₂ := by
  simp [lastChildStatus, List.foldl_append]

/-- If every poll of `l` that returned the child carried the status `s`, and
either the status held before was `s` or some poll of `l` returned the child,
the status held after `l` is `s`. -/
theorem lastChildStatus_eq (child s : Int) (l : List Poll) (x : Int)
    (hall : ∀ p ∈ l, p.reaped = child → p.status = s)
    (hex : x = s ∨ ∃ p ∈ l, p.reaped = child) :
    lastChildStatus child x l = s := by
  induction l generalizing x with
  | nil =>
    rcases hex with h | ⟨p, hp, _⟩
    · simpa [lastChildStatus] using h
    · simp at hp
  | cons a l ih =>
    have hstep : lastChildStatus child x (a :: l) =
        lastChildStatus child (if a.reaped = child then a.status else x) l := rfl
    rw [hstep]
    apply ih
    · intro p hp; exact hall p (List.mem_cons_of_mem _ hp)
    · by_cases ha : a.reaped = child
      · left; simp [ha, hall a (List.mem_cons_self _ _) ha]
      · rcases hex with h | ⟨p, hp, hpc⟩
        · left; simp [ha, h]
        · rcases List.mem_cons.1 hp with rfl | hp'
          · exact absurd hpc ha
          · right; exact ⟨p, hp', hpc⟩

/-- If no poll of `l` returned the child, the status held is unchanged. -/
theorem lastChildStatus_of_not_mem (child : Int) (l : List Poll) (x : Int)
    (hno : ∀ p ∈ l, p.reaped ≠ child) : lastChildStatus child x l = x := by
  induction l generalizing x with
  | nil => rfl
  | cons a l ih =>
    have hstep : lastChildStatus child x (a :: l) =
        lastChildStatus child (if a.reaped = child then a.status else x) l := rfl
    rw [hstep, if_neg (hno a (List.mem_cons_self _ _))]
    exact ih x (fun p hp => hno p (List.mem_cons_of_mem _ hp))

/-- The outcomes the loop has consumed out of `ps` are the first `polls` of
them, and the status it holds is that of the last consumed poll that returned
the child. -/
theorem reapLoop_consumed (child : Int) (ps : List Poll) :
    (reapLoop child reapInit ps).polls ≤ ps.length ∧
    (reapLoop child reapInit ps).xstatus =
      lastChildStatus child 0 (ps.take (reapLoop child reapInit ps).polls) := by
  cases hr : (reapLoop child reapInit ps).stopped with
  | false =>
    obtain ⟨h1, _, h3, _⟩ := reapLoop_running child ps reapInit rfl hr
    have hp : (reapLoop child reapInit ps).polls = ps.length := by
      rw [h1]; simp [reapInit]
    rw [hp, List.take_length]
    exact ⟨le_refl _, h3⟩
  | true =>
    obtain ⟨pre, q, post, hps, h1, _, _, h4⟩ :=
      reapLoop_stopped_split child ps reapInit rfl hr
    obtain ⟨g1, _, g3, _⟩ := reapLoop_running child pre reapInit rfl h1
    have hp : (reapLoop child reapInit ps).polls = pre.length + 1 := by
      rw [h4, reapStep_polls, g1]; simp [reapInit]
    have htake : ps.take (pre.length + 1) = pre ++ [q] := by
      rw [hps]
      have : pre ++ q :: post = (pre ++ [q]) ++ post := by simp
      rw [this, List.take_left' (by simp)]
    refine ⟨by rw [hp, hps]; simp, ?_⟩
    rw [hp, htake, lastChildStatus_append, h4, reapStep_xstatus, g3]
    rfl

/-! ## Exit status and reaping: the claims -/

/-- C1. Exit-status mapping.  For every wait status: if it denotes a normal
exit with code `N`, `0 ≤ N ≤ 255`, the program's exit status is `N` and the
footer line is `EXIT STATUS: N`; if it denotes termination by a signal, the
exit status is 1 and the footer line is `EXIT SIGNAL: ` followed by the name of
that signal, then ` (core dumped)` exactly when the core flag is set; for any
other status the exit status is 1. -/
theorem exit_status_mapping (W : WaitMacros) (xstatus : Int) :
    (∀ N : Nat, W.WIFEXITED xstatus = true → W.WEXITSTATUS xstatus = (N : Int) → N ≤ 255 →
      processExit (exitReport W xstatus).2 = (N : Int) ∧
      (exitReport W xstatus).1 = "EXIT STATUS: ".toList ++ fmtU N ++ "\n".toList) ∧
    (W.WIFEXITED xstatus = false → W.WIFSIGNALED xstatus = true →
      processExit (exitReport W xstatus).2 = 1 ∧
      (exitReport W xstatus).1 =
        "EXIT SIGNAL: ".toList ++ W.strsignal (toUnsigned (W.WTERMSIG xstatus))
          ++ (if W.WCOREDUMP xstatus = true then " (core dumped)".toList else [])
          ++ "\n".toList) ∧
    (W.WIFEXITED xstatus = false → W.WIFSIGNALED xstatus = false →
      processExit (exitReport W xstatus).2 = 1) := by
  refine ⟨?_, ?_, ?_⟩
  · intro N he hN hle
    have hu : toUnsigned (N : Int) = N := by
      unfold toUnsigned
      omega
    constructor
    · simp only [exitReport, he, if_true, hN]
      unfold processExit
      omega
    · simp only [exitReport, he, if_true, hN, hu]
  · intro he hs
    simp only [exitReport, he, hs, if_true, Bool.false_eq_true, if_false]
    refine ⟨by decide, ?_⟩
    by_cases hc : W.WCOREDUMP xstatus = true <;> simp [hc]
  · intro he hs
    simp only [exitReport, he, hs, Bool.false_eq_true, if_false]
    decide

/-- The mapping evaluated on three statuses in the usual encoding: exit code 3,
signal 11 with the core flag, and a status that is neither. -/
theorem exit_status_mapping_witness :
    (processExit (exitReport unixWait 768).2 = 3 ∧
      (exitReport unixWait 768).1 = "EXIT STATUS: 3\n".toList) ∧
    (processExit (exitReport unixWait 139).2 = 1 ∧
      (exitReport unixWait 139).1 = "EXIT SIGNAL: Segmentation fault (core dumped)\n".toList) ∧
    processExit (exitReport unixWait 127).2 = 1 :=
  ⟨(exit_status_mapping unixWait 768).1 3 (by decide) (by decide) (by decide),
   (exit_status_mapping unixWait 139).2.1 (by decide) (by decide),
   (exit_status_mapping unixWait 127).2.2 (by decide) (by decide)⟩

/-- When no poll made returned the child, the loop still holds the status 0 it
started with, and any platform on which status 0 is a normal exit with code 0
reports it as `EXIT STATUS: 0` with exit status 0. -/
theorem unreaped_child_status (W : WaitMacros) (child : Int) (ps : List Poll)
    (hno : ∀ p ∈ ps.take (reapLoop child reapInit ps).polls, p.reaped ≠ child)
    (h0 : W.WIFEXITED 0 = true) (h1 : W.WEXITSTATUS 0 = 0) :
    (reapLoop child reapInit ps).xstatus = 0 ∧
    exitReport W (reapLoop child reapInit ps).xstatus = ("EXIT STATUS: 0\n".toList, 0) := by
  have hx : (reapLoop child reapInit ps).xstatus = 0 := by
    rw [(reapLoop_consumed child ps).2]
    exact lastChildStatus_of_not_mem child _ 0 hno
  refine ⟨hx, ?_⟩
  rw [hx]
  simp only [exitReport, h0, if_true, h1]
  decide

/-- C2, evaluated where the code departs from it.  Both polls of the reap loop
fail, so none returns the child (process id 4242): the loop stops holding the
status 0 it started with, and in the usual encoding the footer then reads
`EXIT STATUS: 0` and the program exits with status 0, where the claim asks
for the unknown-status report and exit status 1. -/
theorem unreaped_child_reported_as_exit_zero :
    (reapLoop 4242 reapInit [⟨-1, 0⟩, ⟨-1, 0⟩]).stopped = true ∧
    (reapLoop 4242 reapInit [⟨-1, 0⟩, ⟨-1, 0⟩]).polls = 2 ∧
    (reapLoop 4242 reapInit [⟨-1, 0⟩, ⟨-1, 0⟩]).xstatus = 0 ∧
    exitReport unixWait (reapLoop 4242 reapInit [⟨-1, 0⟩, ⟨-1, 0⟩]).xstatus =
      ("EXIT STATUS: 0\n".toList, 0) ∧
    processExit (exitReport unixWait (reapLoop 4242 reapInit [⟨-1, 0⟩, ⟨-1, 0⟩]).xstatus).2 = 0 := by
  decide

theorem noDoubleFail_iff (ps : List Poll) (hnz : ∀ p ∈ ps, p.reaped ≠ 0) :
    NoDoubleFail ps ↔ NoTwoFailures ps := by
  unfold NoDoubleFail NoTwoFailures
  have e1 := List.Chain'.iff_mem (R := fun a b : Poll => ¬ (a.failed ∧ b.failed)) (l := ps)
  have e2 := List.Chain'.iff_mem (R := fun a b : Poll => 0 < a.reaped ∨ 0 < b.reaped) (l := ps)
  rw [e1, e2]
  apply List.Chain'.iff
  intro a b
  constructor
  · rintro ⟨ha, hb, h⟩
    refine ⟨ha, hb, ?_⟩
    have h1 := hnz a ha
    have h2 := hnz b hb
    unfold Poll.failed at h
    by_contra hcon
    push_neg at hcon
    exact h ⟨by omega, by omega⟩
  · rintro ⟨ha, hb, h⟩
    refine ⟨ha, hb, ?_⟩
    unfold Poll.failed
    rintro ⟨h1, h2⟩
    omega

theorem reapLoop_alternating (child : Int) (n : Nat) (st : Reap)
    (hst : st.stopped = false) (hw : st.waited = false) :
    (reapLoop child st (alternating n)).stopped = false := by
  induction n generalizing st with
  | zero => simpa [alternating, reapLoop_nil] using hst
  | succ n ih =>
    have h1 : (reapStep child st ⟨-1, 0⟩).stopped = false := by
      simp [reapStep, hw]
    have h2 : (reapStep child (reapStep child st ⟨-1, 0⟩) ⟨7, 0⟩).stopped = false := by
      simp [reapStep]
    have h3 : (reapStep child (reapStep child st ⟨-1, 0⟩) ⟨7, 0⟩).waited = false := by
      simp [reapStep]
    have := ih _ h2 h3
    simpa [alternating, reapLoop_cons, hst, h1] using this

/-- C4 as stated fails.  The loop never stops on polls that fail and return
another child in turn, however many are made; and when the poll after a failed
one returns the child (process id 4242) the loop does not stop after that
second poll: it stops two polls later, after four polls and two delays. -/
theorem reap_bounded_counterexample :
    (∀ n, (reapLoop 4242 reapInit (alternating n)).stopped = false) ∧
    (reapLoop 4242 reapInit [⟨-1, 0⟩, ⟨4242, 256⟩]).stopped = false ∧
    reapLoop 4242 reapInit [⟨-1, 0⟩, ⟨4242, 256⟩, ⟨-1, 0⟩, ⟨-1, 0⟩] =
      { xstatus := 256, waited := true, polls := 4, delays := 2, stopped := true } :=
  ⟨fun n => reapLoop_alternating 4242 n reapInit rfl rfl, by decide, by decide⟩

/-- C4, amended.  For poll outcomes that are each a failure (negative) or a
process id: a failed poll met without the retry flag is followed by one delay
and another poll; a failed poll met with the flag stops the loop; a poll that
returns a process id clears the flag.  So the loop is still running after `ps`
exactly when no two polls in a row failed, having made every poll and one
delay per failure; and when it has stopped, it stopped at the second poll of
the first pair of failures in a row, having made the polls up to that one and
one delay for each failure before it. -/
theorem reap_stops_at_second_failure (child : Int) (ps : List Poll)
    (hnz : ∀ p ∈ ps, p.reaped ≠ 0) :
    (∀ st p, p.reaped < 0 → st.waited = false →
      (reapStep child st p).stopped = false ∧ (reapStep child st p).waited = true ∧
      (reapStep child st p).delays = st.delays + 1) ∧
    (∀ st p, p.reaped < 0 → st.waited = true →
      (reapStep child st p).stopped = true ∧ (reapStep child st p).delays = st.delays) ∧
    (∀ st p, 0 < p.reaped →
      (reapStep child st p).stopped = false ∧ (reapStep child st p).waited = false ∧
      (reapStep child st p).delays = st.delays) ∧
    ((reapLoop child reapInit ps).stopped = false ↔ NoTwoFailures ps) ∧
    ((reapLoop child reapInit ps).stopped = false →
      (reapLoop child reapInit ps).polls = ps.length ∧
      (reapLoop child reapInit ps).delays = failures ps) ∧
    ((reapLoop child reapInit ps).stopped = true →
      ∃ pre p q post, ps = pre ++ p :: q :: post ∧ p.reaped < 0 ∧ q.reaped < 0 ∧
        NoTwoFailures (pre ++ [p]) ∧
        (reapLoop child reapInit ps).polls = pre.length + 2 ∧
        (reapLoop child reapInit ps).delays = failures (pre ++ [p])) := by
  refine ⟨?_, ?_, ?_, ?_, ?_, ?_⟩
  · intro st p hp hw
    simp [reapStep, hp, hw]
  · intro st p hp hw
    simp [reapStep, hp, hw]
  · intro st p hp
    have : ¬ p.reaped < 0 := by omega
    simp [reapStep, this]
  · rw [reapLoop_running_iff child ps reapInit rfl, noDoubleFail_iff ps hnz]
    simp [reapInit]
  · intro hr
    obtain ⟨h1, h2, _, _⟩ := reapLoop_running child ps reapInit rfl hr
    refine ⟨by simpa [reapInit] using h1, ?_⟩
    simpa [reapInit, failures, Poll.failed] using h2
  · intro hr
    obtain ⟨pre, q, post, hps, h1, h2, h3, h4⟩ :=
      reapLoop_stopped_split child ps reapInit rfl hr
    obtain ⟨g1, g2, _, g4⟩ := reapLoop_running child pre reapInit rfl h1
    have hlast : ∃ l, pre.getLast? = some l ∧ l.failed := by
      rcases g4.1 h2 with ⟨_, hw⟩ | h
      · simp [reapInit] at hw
      · exact h
    obtain ⟨l, hl, hlf⟩ := hlast
    obtain ⟨pre0, rfl⟩ : ∃ pre0, pre = pre0 ++ [l] := by
      have hne : pre ≠ [] := by
        rintro rfl
        simp at hl
      refine ⟨pre.dropLast, ?_⟩
      have := List.dropLast_append_getLast? l (by simpa using hl)
      exact this.symm
    have hrun := (reapLoop_running_iff child (pre0 ++ [l]) reapInit rfl).1 h1
    have hnz' : ∀ p ∈ pre0 ++ [l], p.reaped ≠ 0 := by
      intro p hp
      apply hnz p
      rw [hps]
      exact List.mem_append_left _ hp
    refine ⟨pre0, l, q, post, by rw [hps]; simp, hlf, h3,
      (noDoubleFail_iff _ hnz').1 hrun.2, ?_, ?_⟩
    · rw [h4, reapStep_polls, g1]
      simp [reapInit]
    · have hno : ¬ (q.failed ∧ (reapLoop child reapInit (pre0 ++ [l])).waited = false) := by
        rw [h2]; simp
      rw [h4, reapStep_delays, g2, if_neg hno]
      simp [reapInit, failures, Poll.failed]

/-- The amended C4 on the polls: failure, the child, failure, failure. -/
theorem reap_stops_at_second_failure_witness :
    (reapLoop 4242 reapInit [⟨-1, 0⟩, ⟨4242, 256⟩, ⟨-1, 0⟩, ⟨-1, 0⟩]).stopped = true ∧
    ¬ NoTwoFailures [⟨-1, 0⟩, ⟨4242, 256⟩, ⟨-1, 0⟩, ⟨-1, 0⟩] :=
  have h := reap_stops_at_second_failure 4242 [⟨-1, 0⟩, ⟨4242, 256⟩, ⟨-1, 0⟩, ⟨-1, 0⟩]
    (by decide)
  ⟨by decide, fun hc => by
    have := h.2.2.2.1.2 hc
    exact absurd this (by decide)⟩

/-- C5. Reaping records the disposition of the tracked child.  If some poll
made before the loop stops returns the child's process id with wait status
`s` (the status every poll that returns the child carries), the status held
when the loop exits is `s`.  A poll that returns another process id, zero or
an error leaves the recorded status as it was.  In particular, when the first
poll fails and the retry returns the child, the loop ends holding the child's
status. -/
theorem reap_records_child (child : Int) (hchild : 0 < child) (ps : List Poll) (s : Int)
    (hsome : ∃ p ∈ ps.take (reapLoop child reapInit ps).polls,
      p.reaped = child ∧ p.status = s)
    (hstatus : ∀ p ∈ ps.take (reapLoop child reapInit ps).polls,
      p.reaped = child → p.status = s) :
    (reapLoop child reapInit ps).xstatus = s ∧
    (∀ st p, (p.reaped ≠ child ∨ p.reaped ≤ 0) →
      (reapStep child st p).xstatus = st.xstatus) ∧
    (∀ e e1 e2,
      (reapLoop child reapInit [⟨-1, e⟩, ⟨child, s⟩, ⟨-1, e1⟩, ⟨-1, e2⟩]).stopped = true ∧
      (reapLoop child reapInit [⟨-1, e⟩, ⟨child, s⟩, ⟨-1, e1⟩, ⟨-1, e2⟩]).xstatus = s) := by
  refine ⟨?_, ?_, ?_⟩
  · rw [(reapLoop_consumed child ps).2]
    obtain ⟨p, hp, hpc, _⟩ := hsome
    exact lastChildStatus_eq child s _ 0 hstatus (Or.inr ⟨p, hp, hpc⟩)
  · intro st p hp
    rw [reapStep_xstatus]
    have : p.reaped ≠ child := by
      rcases hp with h | h
      · exact h
      · omega
    simp [this]
  · intro e e1 e2
    have hne : (-1 : Int) ≠ child := by omega
    have hnn : ¬ child < 0 := by omega
    simp [reapLoop_cons, reapLoop_nil, reapStep, reapInit, hne, hnn]

/-- C5 on the polls of the race: the first poll fails, the retry returns the
child 4242 with status 256, then two polls fail. -/
theorem reap_records_child_witness :
    (reapLoop 4242 reapInit [⟨-1, 0⟩, ⟨4242, 256⟩, ⟨-1, 0⟩, ⟨-1, 0⟩]).xstatus = 256 :=
  (reap_records_child 4242 (by decide) [⟨-1, 0⟩, ⟨4242, 256⟩, ⟨-1, 0⟩, ⟨-1, 0⟩] 256
    (by decide) (by decide)).1

/-! ## The clock message: the claims -/

theorem clockPart_fire (doclock : Nat) (hd : doclock ≠ 0) (s : Vars) (inp : IterIn)
    (h : clockInterval doclock * 1000000 + min s.tclocklast inp.tnow - inp.tnow ≤ 0) :
    clockPart doclock s inp =
      ({ s with tclocklast := inp.tnow },
        [Ev.ustime inp.tnow] ++ clockMessage s.tstart inp.clk, true) := by
  unfold clockPart
  rw [if_pos hd]
  by_cases hlt : s.tclocklast > inp.tnow
  · have hm : min s.tclocklast inp.tnow = inp.tnow := min_eq_right (le_of_lt hlt)
    rw [hm] at h
    simp only [hlt, if_true, h]
  · have hm : min s.tclocklast inp.tnow = s.tclocklast := min_eq_left (by omega)
    rw [hm] at h
    simp only [hlt, if_false, h, if_true]

theorem clockPart_wait (doclock : Nat) (hd : doclock ≠ 0) (s : Vars) (inp : IterIn)
    (h : 0 < clockInterval doclock * 1000000 + min s.tclocklast inp.tnow - inp.tnow) :
    clockPart doclock s inp =
      ({ s with
          tclocklast := min s.tclocklast inp.tnow,
          tvto :=
            (Int.tdiv (clockInterval doclock * 1000000 + min s.tclocklast inp.tnow - inp.tnow)
                1000000,
              Int.tmod (clockInterval doclock * 1000000 + min s.tclocklast inp.tnow - inp.tnow)
                1000000) },
        [Ev.ustime inp.tnow], false) := by
  unfold clockPart
  rw [if_pos hd]
  by_cases hlt : s.tclocklast > inp.tnow
  · have hm : min s.tclocklast inp.tnow = inp.tnow := min_eq_right (le_of_lt hlt)
    rw [hm] at h ⊢
    have h' : ¬ clockInterval doclock * 1000000 + inp.tnow - inp.tnow ≤ 0 := by omega
    simp only [hlt, if_true, h', if_false]
  · have hm : min s.tclocklast inp.tnow = s.tclocklast := min_eq_left (by omega)
    rw [hm] at h ⊢
    have h' : ¬ clockInterval doclock * 1000000 + s.tclocklast - inp.tnow ≤ 0 := by omega
    simp only [hlt, if_false, h']

theorem clockPart_off (s : Vars) (inp : IterIn) : clockPart 0 s inp = (s, [], false) := by
  simp [clockPart]

theorem clockInterval_pos (doclock : Nat) : 0 < clockInterval doclock := by
  unfold clockInterval
  split <;> decide

/-- A pass whose `select` fails: a report unless the error is transient, the
delay, and back to the top of the loop. -/
theorem selectPart_fail (doclock : Nat) (s : Vars) (inp : IterIn) (e : Errno) (msg : Bytes)
    (h : inp.sel = .fail e msg) :
    selectPart doclock s inp =
      (s, [Ev.select s.pout s.perr (if doclock ≠ 0 then some s.tvto else none)]
            ++ (if e.transient then []
                else demit .stderr .fp ("select() failed: ".toList ++ msg ++ "\r\n".toList))
            ++ [Ev.usleep 250000], true) := by
  simp only [selectPart, h]

theorem selectPart_out (doclock : Nat) (s : Vars) (inp : IterIn) (ro re : Bool)
    (h : inp.sel = .ready ro re) (hc : (s.pout && ro) = true) :
    selectPart doclock s inp =
      ((readPart s .out .stdout inp.rd).1,
        Ev.select s.pout s.perr (if doclock ≠ 0 then some s.tvto else none)
          :: (readPart s .out .stdout inp.rd).2.1,
        (readPart s .out .stdout inp.rd).2.2) := by
  simp only [selectPart, h, hc, if_true, List.singleton_append]

theorem selectPart_err (doclock : Nat) (s : Vars) (inp : IterIn) (ro re : Bool)
    (h : inp.sel = .ready ro re) (hc : (s.pout && ro) = false) (hc' : (s.perr && re) = true) :
    selectPart doclock s inp =
      ((readPart s .err .stderr inp.rd).1,
        Ev.select s.pout s.perr (if doclock ≠ 0 then some s.tvto else none)
          :: (readPart s .err .stderr inp.rd).2.1,
        (readPart s .err .stderr inp.rd).2.2) := by
  simp only [selectPart, h, hc, hc', if_true, List.singleton_append, Bool.false_eq_true, if_false]

theorem selectPart_idle (doclock : Nat) (s : Vars) (inp : IterIn) (ro re : Bool)
    (h : inp.sel = .ready ro re) (hc : (s.pout && ro) = false) (hc' : (s.perr && re) = false) :
    selectPart doclock s inp =
      (s, [Ev.select s.pout s.perr (if doclock ≠ 0 then some s.tvto else none)], false) := by
  simp only [selectPart, h, hc, hc', Bool.false_eq_true, if_false]

theorem selectPart_head (doclock : Nat) (s : Vars) (inp : IterIn) :
    ∃ rest, (selectPart doclock s inp).2.1 =
      Ev.select s.pout s.perr (if doclock ≠ 0 then some s.tvto else none) :: rest := by
  cases hsel : inp.sel with
  | fail e msg =>
    rw [selectPart_fail doclock s inp e msg hsel]
    exact ⟨(if e.transient then []
        else demit .stderr .fp ("select() failed: ".toList ++ msg ++ "\r\n".toList))
        ++ [Ev.usleep 250000], by simp⟩
  | ready ro re =>
    cases hc : (s.pout && ro) with
    | true => rw [selectPart_out doclock s inp ro re hsel hc]; exact ⟨_, rfl⟩
    | false =>
      cases hc' : (s.perr && re) with
      | true => rw [selectPart_err doclock s inp ro re hsel hc hc']; exact ⟨_, rfl⟩
      | false => rw [selectPart_idle doclock s inp ro re hsel hc hc']; exact ⟨_, rfl⟩

theorem passAlong_clock (s : Vars) (i : Int) (o : Stream) (src : Option Chan) (buf : Bytes) :
    (passAlong s i o src buf).1.tclocklast = s.tclocklast := by
  unfold passAlong
  split_ifs <;> rfl

theorem readPart_clock (s : Vars) (c : Chan) (o : Stream) (rd : ReadResult) :
    (readPart s c o rd).1.tclocklast = s.tclocklast := by
  cases rd with
  | fail e msg =>
    by_cases ht : e.transient = true
    · simp [readPart, ht]
    · simp [readPart, ht, passAlong_clock]
  | data chunk => simp [readPart, passAlong_clock]

theorem selectPart_clock (doclock : Nat) (s : Vars) (inp : IterIn) :
    (selectPart doclock s inp).1.tclocklast = s.tclocklast := by
  cases hsel : inp.sel with
  | fail e msg => rw [selectPart_fail doclock s inp e msg hsel]
  | ready ro re =>
    cases hc : (s.pout && ro) with
    | true => rw [selectPart_out doclock s inp ro re hsel hc]; exact readPart_clock _ _ _ _
    | false =>
      cases hc' : (s.perr && re) with
      | true => rw [selectPart_err doclock s inp ro re hsel hc hc']; exact readPart_clock _ _ _ _
      | false => rw [selectPart_idle doclock s inp ro re hsel hc hc']

theorem loopBody_fire (doclock : Nat) (s : Vars) (inp : IterIn)
    (h : (clockPart doclock s inp).2.2 = true) :
    loopBody doclock s inp =
      ((clockPart doclock s inp).1, Ev.fflush .fp :: (clockPart doclock s inp).2.1, .again) := by
  simp only [loopBody, h, if_true, List.singleton_append]

theorem loopBody_vars (doclock : Nat) (s : Vars) (inp : IterIn)
    (h : (clockPart doclock s inp).2.2 = false) :
    (loopBody doclock s inp).1 = (selectPart doclock (clockPart doclock s inp).1 inp).1 ∧
    (loopBody doclock s inp).2.1 =
      Ev.fflush .fp :: ((clockPart doclock s inp).2.1
        ++ (selectPart doclock (clockPart doclock s inp).1 inp).2.1) := by
  simp only [loopBody, h, Bool.false_eq_true, if_false]
  split_ifs <;> simp

theorem loopBody_clock (doclock : Nat) (s : Vars) (inp : IterIn) :
    (loopBody doclock s inp).1.tclocklast = (clockPart doclock s inp).1.tclocklast := by
  cases h : (clockPart doclock s inp).2.2 with
  | true => rw [loopBody_fire doclock s inp h]
  | false => rw [(loopBody_vars doclock s inp h).1, selectPart_clock]

/-- C8 as stated fails when the clock has gone back.  With the last clock
message at 100 microseconds, the clock reading 50 and level 3, the interval
plus last-fire minus now is 20000050 microseconds (20 s and 50 microseconds),
but the pass hands `select` a timeout of 20 s and 0 microseconds. -/
theorem clock_timeout_counterexample :
    varsAt100.tclocklast = 100 ∧ clockAt50.tnow = 50 ∧
    clockInterval 3 * 1000000 + varsAt100.tclocklast - clockAt50.tnow = 20000050 ∧
    (Int.tdiv 20000050 1000000, Int.tmod 20000050 1000000) = (20, 50) ∧
    (loopBody 3 varsAt100 clockAt50).2.1 =
      [Ev.fflush .fp, Ev.ustime 50, Ev.select true true (some (20, 0))] := by
  decide

/-- C8, amended.  At level 1 the interval is 300 s, at level 2 it is 60 s, at
every level from 3 on it is 20 s.  In each pass with clock messages enabled, a
stored last-fire time later than the clock reading is first lowered to the
reading; the remaining time is then interval plus last-fire minus now, in
microseconds.  A clock message is written exactly when the remaining time is
zero or negative, which is exactly when interval plus the stored last-fire
minus now is; the pass then sets last-fire to the reading and starts over.
Otherwise the clock part writes nothing and `select` is given the remaining
time as its timeout, split in seconds and microseconds. -/
theorem clock_message_schedule (doclock : Nat) (hd : doclock ≠ 0) (s : Vars) (inp : IterIn) :
    (clockInterval 1 = 300 ∧ clockInterval 2 = 60 ∧ ∀ L, 3 ≤ L → clockInterval L = 20) ∧
    (s.tclocklast ≤ inp.tnow →
      remainingTime doclock s inp.tnow =
        clockInterval doclock * 1000000 + s.tclocklast - inp.tnow) ∧
    (inp.tnow < s.tclocklast →
      remainingTime doclock s inp.tnow = clockInterval doclock * 1000000) ∧
    (remainingTime doclock s inp.tnow ≤ 0 ↔
      clockInterval doclock * 1000000 + s.tclocklast - inp.tnow ≤ 0) ∧
    ((clockPart doclock s inp).2.2 = true ↔ remainingTime doclock s inp.tnow ≤ 0) ∧
    (remainingTime doclock s inp.tnow ≤ 0 →
      loopBody doclock s inp =
        ({ s with tclocklast := inp.tnow },
          [Ev.fflush .fp, Ev.ustime inp.tnow] ++ clockMessage s.tstart inp.clk, .again)) ∧
    (0 < remainingTime doclock s inp.tnow →
      (clockPart doclock s inp).2.1 = [Ev.ustime inp.tnow] ∧
      (∃ rest, (loopBody doclock s inp).2.1 =
        [Ev.fflush .fp, Ev.ustime inp.tnow,
          Ev.select s.pout s.perr
            (some (Int.tdiv (remainingTime doclock s inp.tnow) 1000000,
                   Int.tmod (remainingTime doclock s inp.tnow) 1000000))] ++ rest) ∧
      Int.tdiv (remainingTime doclock s inp.tnow) 1000000 * 1000000
        + Int.tmod (remainingTime doclock s inp.tnow) 1000000
        = remainingTime doclock s inp.tnow) := by
  have hpos := clockInterval_pos doclock
  refine ⟨⟨rfl, rfl, ?_⟩, ?_, ?_, ?_, ?_, ?_, ?_⟩
  · intro L hL
    unfold clockInterval
    split <;> omega
  · intro h
    unfold remainingTime
    rw [min_eq_left h]
  · intro h
    unfold remainingTime
    rw [min_eq_right (le_of_lt h)]
    omega
  · unfold remainingTime
    rcases le_or_lt s.tclocklast inp.tnow with h | h
    · rw [min_eq_left h]
    · rw [min_eq_right (le_of_lt h)]
      constructor <;> intro h' <;> omega
  · rcases le_or_lt (remainingTime doclock s inp.tnow) 0 with h | h
    · rw [clockPart_fire doclock hd s inp h]
      simp [h]
    · rw [clockPart_wait doclock hd s inp h]
      simp only [Bool.false_eq_true, false_iff, not_le]
      exact h
  · intro h
    have hc := clockPart_fire doclock hd s inp h
    have hb : (clockPart doclock s inp).2.2 = true := by rw [hc]
    rw [loopBody_fire doclock s inp hb, hc]
    rfl
  · intro h
    have hc := clockPart_wait doclock hd s inp h
    have hb : (clockPart doclock s inp).2.2 = false := by rw [hc]
    refine ⟨by rw [hc], ?_, Int.tdiv_add_tmod' _ _⟩
    obtain ⟨rest, hrest⟩ := selectPart_head doclock (clockPart doclock s inp).1 inp
    refine ⟨rest, ?_⟩
    rw [(loopBody_vars doclock s inp hb).2, hrest, hc]
    simp [hd, remainingTime]

/-- The amended C8 at level 2 with the last message at 100 and the clock at 50:
no message, and a timeout of 60 s. -/
theorem clock_message_schedule_witness :
    (clockPart 2 varsAt100 clockAt50).2.1 = [Ev.ustime 50] ∧
    remainingTime 2 varsAt100 clockAt50.tnow = 60000000 :=
  ⟨((clock_message_schedule 2 (by decide) varsAt100 clockAt50).2.2.2.2.2.2 (by decide)).1,
   (clock_message_schedule 2 (by decide) varsAt100 clockAt50).2.2.1 (by decide)⟩

/-- C9 as stated fails.  With the last clock message at 100 microseconds and
the clock reading 50, the pass leaves 50 as the stored time of the last
message: the stored time has gone down. -/
theorem last_fire_decreases_counterexample :
    varsAt100.tclocklast = 100 ∧ (loopBody 3 varsAt100 clockAt50).1.tclocklast = 50 := by
  decide

/-- C9, amended.  The stored last-fire time goes down from one pass to the next
exactly when clock messages are enabled and the clock reading of the pass is
earlier than the stored time; it is then set to that reading.  In every other
pass it stays as it was or moves up to the clock reading; with clock messages
enabled it is never later than the reading after the pass. -/
theorem last_fire_step (doclock : Nat) (s : Vars) (inp : IterIn) :
    ((loopBody doclock s inp).1.tclocklast < s.tclocklast ↔
      doclock ≠ 0 ∧ inp.tnow < s.tclocklast) ∧
    (doclock ≠ 0 → inp.tnow < s.tclocklast →
      (loopBody doclock s inp).1.tclocklast = inp.tnow) ∧
    (doclock ≠ 0 → s.tclocklast ≤ inp.tnow →
      (loopBody doclock s inp).1.tclocklast = s.tclocklast ∨
      (loopBody doclock s inp).1.tclocklast = inp.tnow) ∧
    (doclock ≠ 0 → (loopBody doclock s inp).1.tclocklast ≤ inp.tnow) ∧
    (doclock = 0 → (loopBody doclock s inp).1.tclocklast = s.tclocklast) := by
  rw [loopBody_clock]
  by_cases hd : doclock = 0
  · subst hd
    rw [clockPart_off]
    simp
  · have key : (clockPart doclock s inp).1.tclocklast = inp.tnow ∨
        ((clockPart doclock s inp).1.tclocklast = s.tclocklast ∧ s.tclocklast ≤ inp.tnow) := by
      rcases le_or_lt (remainingTime doclock s inp.tnow) 0 with h | h
      · rw [clockPart_fire doclock hd s inp h]
        exact Or.inl rfl
      · rw [clockPart_wait doclock hd s inp h]
        rcases le_or_lt s.tclocklast inp.tnow with h' | h'
        · exact Or.inr ⟨min_eq_left h', h'⟩
        · exact Or.inl (min_eq_right (le_of_lt h'))
    refine ⟨?_, ?_, ?_, ?_, ?_⟩
    · constructor
      · intro h
        refine ⟨hd, ?_⟩
        rcases key with k | ⟨k, _⟩ <;> omega
      · rintro ⟨_, h⟩
        rcases key with k | ⟨k, k'⟩ <;> omega
    · intro _ h
      rcases key with k | ⟨k, k'⟩ <;> omega
    · intro _ h
      rcases key with k | ⟨k, _⟩
      · exact Or.inr k
      · exact Or.inl k
    · intro _
      rcases key with k | ⟨k, k'⟩ <;> omega
    · intro h
      exact absurd h hd

/-- The amended C9 on the pass in which the clock reads 50 after a message at
100: the stored time becomes 50. -/
theorem last_fire_step_witness :
    (loopBody 3 varsAt100 clockAt50).1.tclocklast = clockAt50.tnow :=
  (last_fire_step 3 varsAt100 clockAt50).2.1 (by decide) (by decide)

/-! ## The main loop: what one pass does -/

theorem passAlong_zero_stdout (s : Vars) (src : Option Chan) (buf : Bytes) :
    passAlong s 0 .stdout src buf = ({ s with pout := false }, [Ev.close .out]) := by
  simp [passAlong]

theorem passAlong_zero_stderr (s : Vars) (src : Option Chan) (buf : Bytes) :
    passAlong s 0 .stderr src buf = ({ s with perr := false }, [Ev.close .err]) := by
  simp [passAlong]

theorem passAlong_all (s : Vars) (o : Stream) (src : Option Chan) (buf : Bytes)
    (h : buf ≠ []) :
    passAlong s buf.length o src buf =
      (s, [Ev.write o src buf, Ev.write .fp src buf]
            ++ (if o = .stdout then [Ev.fflush .stdout] else [])) := by
  have h0 : ((buf.length : Nat) : Int) ≠ 0 := by
    intro hc
    exact h (List.length_eq_zero.1 (by exact_mod_cast hc))
  have h1 : (0 : Int) < ((buf.length : Nat) : Int) := by
    have : 0 < buf.length := List.length_pos.2 h
    exact_mod_cast this
  simp only [passAlong, h0, if_false, h1, gt_iff_lt, if_true, Int.toNat_ofNat, List.take_length,
    List.nil_append]

theorem readPart_eof_out (s : Vars) :
    readPart s .out .stdout (.data []) =
      ({ s with pout := false }, [Ev.read .out (.data []), Ev.close .out], false) := by
  simp [readPart, passAlong]

theorem readPart_eof_err (s : Vars) :
    readPart s .err .stderr (.data []) =
      ({ s with perr := false }, [Ev.read .err (.data []), Ev.close .err], false) := by
  simp [readPart, passAlong]

theorem readPart_chunk (s : Vars) (c : Chan) (o : Stream) (chunk : Bytes) (h : chunk ≠ []) :
    readPart s c o (.data chunk) =
      (s, [Ev.read c (.data chunk), Ev.write o (some c) chunk, Ev.write .fp (some c) chunk]
            ++ (if o = .stdout then [Ev.fflush .stdout] else []), false) := by
  simp only [readPart, passAlong_all s o (some c) chunk h]
  simp

theorem readPart_transient (s : Vars) (c : Chan) (o : Stream) (e : Errno) (msg : Bytes)
    (h : e.transient = true) :
    readPart s c o (.fail e msg) =
      (s, [Ev.read c (.fail e msg), Ev.usleep 250000], true) := by
  simp [readPart, h]

theorem readPart_hard (s : Vars) (c : Chan) (o : Stream) (e : Errno) (msg : Bytes)
    (h : e.transient = false) :
    readPart s c o (.fail e msg) =
      (s, [Ev.read c (.fail e msg), Ev.usleep 250000,
           Ev.write .stderr none ("read failed: ".toList ++ msg ++ "\r\n".toList),
           Ev.write .fp none ("read failed: ".toList ++ msg ++ "\r\n".toList)], false) := by
  have hne : "read failed: ".toList ++ msg ++ "\r\n".toList ≠ [] := by
    simp
  simp only [readPart, h, Bool.false_eq_true, if_false, passAlong_all s .stderr none _ hne]
  simp

theorem clockMessage_notes (tstart : Int) (clk : Clock) :
    ∀ e ∈ clockMessage tstart clk, e.isNote = true := by
  intro e he
  simp only [clockMessage, time_emit, demit, Bool.false_eq_true, if_false, List.append_nil,
    List.mem_append, List.mem_cons, List.mem_singleton, List.not_mem_nil, or_false] at he
  rcases he with (((h | h) | ((h | h) | (h | h))) | (h | h)) <;> subst h <;> rfl

theorem clockPart_props (doclock : Nat) (s : Vars) (inp : IterIn) :
    (clockPart doclock s inp).1.pout = s.pout ∧ (clockPart doclock s inp).1.perr = s.perr ∧
    (∀ e ∈ (clockPart doclock s inp).2.1, e.isNote = true) ∧
    ((clockPart doclock s inp).2.2 = false →
      ∀ e ∈ (clockPart doclock s inp).2.1, e.isQuiet = true) := by
  by_cases hd : doclock = 0
  · subst hd
    rw [clockPart_off]
    simp
  · rcases le_or_lt (remainingTime doclock s inp.tnow) 0 with h | h
    · rw [clockPart_fire doclock hd s inp h]
      refine ⟨rfl, rfl, ?_, ?_⟩
      · intro e he
        rcases List.mem_append.1 he with h1 | h1
        · rw [List.mem_singleton.1 h1]; rfl
        · exact clockMessage_notes _ _ e h1
      · intro hc
        exact absurd hc (by simp)
    · rw [clockPart_wait doclock hd s inp h]
      refine ⟨rfl, rfl, ?_, ?_⟩
      · intro e he
        rw [List.mem_singleton.1 he]; rfl
      · intro _ e he
        rw [List.mem_singleton.1 he]; rfl

theorem loopBody_go (doclock : Nat) (s : Vars) (inp : IterIn)
    (h : (clockPart doclock s inp).2.2 = false) :
    loopBody doclock s inp =
      ((selectPart doclock (clockPart doclock s inp).1 inp).1,
        (Ev.fflush .fp :: (clockPart doclock s inp).2.1)
          ++ (selectPart doclock (clockPart doclock s inp).1 inp).2.1,
        if (selectPart doclock (clockPart doclock s inp).1 inp).2.2 then .again
        else if !(selectPart doclock (clockPart doclock s inp).1 inp).1.perr
                  && !(selectPart doclock (clockPart doclock s inp).1 inp).1.pout then .reap
        else .again) := by
  simp only [loopBody, h, Bool.false_eq_true, if_false]
  split_ifs <;> simp

/-- Case analysis of one pass of the loop.  Every pass is one of: a clock
message; a failed `select`; a `select` with nothing to read; a chunk read from
an open channel and passed along; end of file on an open channel; a transient
read error; another read error, reported. -/
theorem loopBody_cases (doclock : Nat) (s : Vars) (inp : IterIn)
    (P : Vars × List Ev × Next → Prop)
    (fire : ∀ (s1 : Vars) (pre : List Ev), s1.pout = s.pout → s1.perr = s.perr →
      (∀ e ∈ pre, e.isNote = true) → P (s1, pre, .again))
    (selfail : ∀ (s1 : Vars) (pre post : List Ev) (tmo : Option (Int × Int)),
      s1.pout = s.pout → s1.perr = s.perr →
      (∀ x ∈ pre, x.isQuiet = true) → (∀ x ∈ post, x.isNote = true) →
      P (s1, pre ++ Ev.select s.pout s.perr tmo :: post, .again))
    (idle : ∀ (s1 : Vars) (pre : List Ev) (tmo : Option (Int × Int)),
      s1.pout = s.pout → s1.perr = s.perr → (∀ x ∈ pre, x.isQuiet = true) →
      P (s1, pre ++ [Ev.select s.pout s.perr tmo],
        if !s.perr && !s.pout then .reap else .again))
    (chunk : ∀ (s1 : Vars) (pre : List Ev) (tmo : Option (Int × Int)) (c : Chan) (ch : Bytes),
      s1.pout = s.pout → s1.perr = s.perr → (∀ x ∈ pre, x.isQuiet = true) →
      s.isOpen c = true → ch ≠ [] →
      P (s1, pre ++ ([Ev.select s.pout s.perr tmo, Ev.read c (.data ch),
            Ev.write c.terminal (some c) ch, Ev.write .fp (some c) ch]
            ++ (if c.terminal = .stdout then [Ev.fflush .stdout] else [])), .again))
    (eof : ∀ (s1 : Vars) (pre : List Ev) (tmo : Option (Int × Int)) (c : Chan),
      s1.pout = s.pout → s1.perr = s.perr → (∀ x ∈ pre, x.isQuiet = true) →
      s.isOpen c = true →
      P (s1.closeChan c, pre ++ [Ev.select s.pout s.perr tmo, Ev.read c (.data []), Ev.close c],
        if s.isOpen c.other = false then .reap else .again))
    (transient : ∀ (s1 : Vars) (pre : List Ev) (tmo : Option (Int × Int)) (c : Chan)
      (e : Errno) (msg : Bytes),
      s1.pout = s.pout → s1.perr = s.perr → (∀ x ∈ pre, x.isQuiet = true) →
      s.isOpen c = true → e.transient = true →
      P (s1, pre ++ [Ev.select s.pout s.perr tmo, Ev.read c (.fail e msg), Ev.usleep 250000],
        .again))
    (hard : ∀ (s1 : Vars) (pre : List Ev) (tmo : Option (Int × Int)) (c : Chan)
      (e : Errno) (msg : Bytes),
      s1.pout = s.pout → s1.perr = s.perr → (∀ x ∈ pre, x.isQuiet = true) →
      s.isOpen c = true → e.transient = false →
      P (s1, pre ++ [Ev.select s.pout s.perr tmo, Ev.read c (.fail e msg), Ev.usleep 250000,
          Ev.write .stderr none ("read failed: ".toList ++ msg ++ "\r\n".toList),
          Ev.write .fp none ("read failed: ".toList ++ msg ++ "\r\n".toList)], .again)) :
    P (loopBody doclock s inp) := by
  obtain ⟨hp, he, hn, hq⟩ := clockPart_props doclock s inp
  cases hcp : (clockPart doclock s inp).2.2 with
  | true =>
    rw [loopBody_fire doclock s inp hcp]
    refine fire _ _ hp he ?_
    intro e he'
    rcases List.mem_cons.1 he' with h | h
    · rw [h]; rfl
    · exact hn e h
  | false =>
    have hpre : ∀ e ∈ Ev.fflush .fp :: (clockPart doclock s inp).2.1, e.isQuiet = true := by
      intro e he'
      rcases List.mem_cons.1 he' with h | h
      · rw [h]; rfl
      · exact hq hcp e h
    rw [loopBody_go doclock s inp hcp]
    generalize (clockPart doclock s inp).1 = s1 at hp he ⊢
    generalize Ev.fflush .fp :: (clockPart doclock s inp).2.1 = pre at hpre ⊢
    cases hsel : inp.sel with
    | fail e msg =>
      rw [selectPart_fail doclock s1 inp e msg hsel]
      have := selfail s1 pre ((if e.transient then []
          else demit .stderr .fp ("select() failed: ".toList ++ msg ++ "\r\n".toList))
          ++ [Ev.usleep 250000]) (if doclock ≠ 0 then some s1.tvto else none) hp he hpre
        (by
          intro x hx
          by_cases ht : e.transient = true
          · simp [ht] at hx; rw [hx]; rfl
          · simp [ht, demit] at hx
            rcases hx with h | h | h <;> rw [h] <;> rfl)
      simpa [hp, he] using this
    | ready ro re =>
      cases hc : (s1.pout && ro) with
      | true =>
        rw [selectPart_out doclock s1 inp ro re hsel hc]
        have hopen : s.isOpen .out = true := by
          have : s1.pout = true := by simpa using (Bool.and_eq_true _ _ ▸ hc).1
          rw [hp] at this
          exact this
        cases hrd : inp.rd with
        | data ch =>
          by_cases hch : ch = []
          · subst hch
            rw [readPart_eof_out]
            have := eof s1 pre (if doclock ≠ 0 then some s1.tvto else none) .out hp he hpre hopen
            simpa [hp, he, Vars.closeChan, Chan.other, Vars.isOpen] using this
          · rw [readPart_chunk s1 .out .stdout ch hch]
            have := chunk s1 pre (if doclock ≠ 0 then some s1.tvto else none) .out ch hp he hpre
              hopen hch
            have hpo : s.pout = true := hopen
            simpa [hp, he, hpo, Chan.terminal] using this
        | fail e msg =>
          cases ht : e.transient with
          | true =>
            rw [readPart_transient s1 .out .stdout e msg ht]
            have := transient s1 pre (if doclock ≠ 0 then some s1.tvto else none) .out e msg
              hp he hpre hopen ht
            simpa [hp, he] using this
          | false =>
            rw [readPart_hard s1 .out .stdout e msg ht]
            have := hard s1 pre (if doclock ≠ 0 then some s1.tvto else none) .out e msg
              hp he hpre hopen ht
            have hpo : s.pout = true := hopen
            simpa [hp, he, hpo] using this
      | false =>
        cases hc' : (s1.perr && re) with
        | true =>
          rw [selectPart_err doclock s1 inp ro re hsel hc hc']
          have hopen : s.isOpen .err = true := by
            have : s1.perr = true := by simpa using (Bool.and_eq_true _ _ ▸ hc').1
            rw [he] at this
            exact this
          have hpe : s.perr = true := hopen
          cases hrd : inp.rd with
          | data ch =>
            by_cases hch : ch = []
            · subst hch
              rw [readPart_eof_err]
              have := eof s1 pre (if doclock ≠ 0 then some s1.tvto else none) .err hp he hpre
                hopen
              simpa [hp, he, Vars.closeChan, Chan.other, Vars.isOpen] using this
            · rw [readPart_chunk s1 .err .stderr ch hch]
              have := chunk s1 pre (if doclock ≠ 0 then some s1.tvto else none) .err ch hp he
                hpre hopen hch
              simpa [hp, he, hpe, Chan.terminal] using this
          | fail e msg =>
            cases ht : e.transient with
            | true =>
              rw [readPart_transient s1 .err .stderr e msg ht]
              have := transient s1 pre (if doclock ≠ 0 then some s1.tvto else none) .err e msg
                hp he hpre hopen ht
              simpa [hp, he] using this
            | false =>
              rw [readPart_hard s1 .err .stderr e msg ht]
              have := hard s1 pre (if doclock ≠ 0 then some s1.tvto else none) .err e msg
                hp he hpre hopen ht
              simpa [hp, he, hpe] using this
        | false =>
          rw [selectPart_idle doclock s1 inp ro re hsel hc hc']
          have := idle s1 pre (if doclock ≠ 0 then some s1.tvto else none) hp he hpre
          simpa [hp, he] using this

theorem not_mem_of_quiet {l : List Ev} (hq : ∀ x ∈ l, x.isQuiet = true) (x : Ev)
    (hx : x.isQuiet = false) : x ∉ l := by
  intro hmem
  rw [hq x hmem] at hx
  exact Bool.noConfusion hx

theorem not_mem_of_notes {l : List Ev} (hn : ∀ x ∈ l, x.isNote = true) (x : Ev)
    (hx : x.isNote = false) : x ∉ l := by
  intro hmem
  rw [hn x hmem] at hx
  exact Bool.noConfusion hx

/-! ## The main loop: the claims -/

/-- C7. Transient read errors are retried.  When the read of a pass fails on
channel `c` with `EAGAIN` or `EINTR`, the pass writes nothing to any stream,
closes no channel and leaves both channels as they were, does not enter the
reap loop, and ends with the delay of 250000 microseconds before the loop
starts its next pass. -/
theorem transient_read_retried (doclock : Nat) (s : Vars) (inp : IterIn) (c : Chan)
    (e : Errno) (msg : Bytes)
    (hread : Ev.read c (.fail e msg) ∈ (loopBody doclock s inp).2.1)
    (ht : e.transient = true) :
    (∀ f src b, Ev.write f src b ∉ (loopBody doclock s inp).2.1) ∧
    (∀ c', Ev.close c' ∉ (loopBody doclock s inp).2.1) ∧
    (loopBody doclock s inp).1.pout = s.pout ∧
    (loopBody doclock s inp).1.perr = s.perr ∧
    (loopBody doclock s inp).2.2 = .again ∧
    (loopBody doclock s inp).2.1.getLast? = some (Ev.usleep 250000) := by
  revert hread
  refine loopBody_cases doclock s inp
    (fun b => Ev.read c (.fail e msg) ∈ b.2.1 →
      (∀ f src b', Ev.write f src b' ∉ b.2.1) ∧ (∀ c', Ev.close c' ∉ b.2.1) ∧
      b.1.pout = s.pout ∧ b.1.perr = s.perr ∧ b.2.2 = .again ∧
      b.2.1.getLast? = some (Ev.usleep 250000)) ?_ ?_ ?_ ?_ ?_ ?_ ?_
  · intro s1 pre _ _ hn hread
    exact absurd hread (not_mem_of_notes hn _ rfl)
  · intro s1 pre post tmo _ _ hq hn hread
    have h1 := not_mem_of_quiet hq (Ev.read c (.fail e msg)) rfl
    have h2 := not_mem_of_notes hn (Ev.read c (.fail e msg)) rfl
    simp [h1, h2] at hread
  · intro s1 pre tmo _ _ hq hread
    have h1 := not_mem_of_quiet hq (Ev.read c (.fail e msg)) rfl
    simp [h1] at hread
  · intro s1 pre tmo c' ch _ _ hq _ _ hread
    have h1 := not_mem_of_quiet hq (Ev.read c (.fail e msg)) rfl
    by_cases hc : c'.terminal = .stdout <;> simp [h1, hc] at hread
  · intro s1 pre tmo c' _ _ hq _ hread
    have h1 := not_mem_of_quiet hq (Ev.read c (.fail e msg)) rfl
    simp [h1] at hread
  · intro s1 pre tmo c' e' msg' hp he hq _ _ _
    refine ⟨?_, ?_, hp, he, rfl, by simp⟩
    · intro f src b
      have h1 := not_mem_of_quiet hq (Ev.write f src b) rfl
      simp [h1]
    · intro c''
      have h1 := not_mem_of_quiet hq (Ev.close c'') rfl
      simp [h1]
  · intro s1 pre tmo c' e' msg' _ _ hq _ ht' hread
    have h1 := not_mem_of_quiet hq (Ev.read c (.fail e msg)) rfl
    simp [h1] at hread
    rw [hread.2.1, ht'] at ht
    exact Bool.noConfusion ht

/-- The pass with an interrupted read writes nothing and goes round again. -/
theorem transient_read_retried_witness :
    (loopBody 0 varsAt100 interruptedRead).2.2 = .again ∧
    (loopBody 0 varsAt100 interruptedRead).2.1.getLast? = some (Ev.usleep 250000) :=
  have h := transient_read_retried 0 varsAt100 interruptedRead .out .EINTR []
    (by decide) (by decide)
  ⟨h.2.2.2.2.1, h.2.2.2.2.2⟩

theorem isNote_of_isQuiet (x : Ev) (h : x.isQuiet = true) : x.isNote = true := by
  cases x <;> simp_all [Ev.isQuiet, Ev.isNote]

theorem notes_of_quiet {l : List Ev} (hq : ∀ x ∈ l, x.isQuiet = true) :
    ∀ x ∈ l, x.isNote = true := fun x hx => isNote_of_isQuiet x (hq x hx)

theorem written_stdout_notes {l : List Ev} (hn : ∀ x ∈ l, x.isNote = true) :
    written .stdout l = [] := by
  unfold written
  rw [List.filterMap_eq_nil_iff]
  intro x hx
  have := hn x hx
  cases x with
  | write f src b =>
    cases f <;> cases src <;> simp_all [Ev.isNote]
  | _ => rfl

theorem writtenFrom_notes (c : Chan) (f : Stream) {l : List Ev}
    (hn : ∀ x ∈ l, x.isNote = true) : writtenFrom c f l = [] := by
  unfold writtenFrom
  rw [List.filterMap_eq_nil_iff]
  intro x hx
  have := hn x hx
  cases x with
  | write f' src b =>
    cases f' <;> cases src <;> simp_all [Ev.isNote]
  | _ => rfl

theorem chunksRead_notes (c : Chan) {l : List Ev} (hn : ∀ x ∈ l, x.isNote = true) :
    chunksRead c l = [] := by
  unfold chunksRead
  rw [List.filterMap_eq_nil_iff]
  intro x hx
  have := hn x hx
  cases x with
  | read c' r => simp [Ev.isNote] at this
  | _ => rfl

theorem written_append (f : Stream) (l₁ l₂ : List Ev) :
    written f (l₁ ++ l₂) = written f l₁ ++ written f l₂ := by
  simp [written, List.filterMap_append]

theorem writtenFrom_append (c : Chan) (f : Stream) (l₁ l₂ : List Ev) :
    writtenFrom c f (l₁ ++ l₂) = writtenFrom c f l₁ ++ writtenFrom c f l₂ := by
  simp [writtenFrom, List.filterMap_append]

theorem chunksRead_append (c : Chan) (l₁ l₂ : List Ev) :
    chunksRead c (l₁ ++ l₂) = chunksRead c l₁ ++ chunksRead c l₂ := by
  simp [chunksRead, List.filterMap_append]

theorem faithful_nil : Faithful [] := by
  simp [Faithful, written, writtenFrom, chunksRead]

theorem faithful_append {l₁ l₂ : List Ev} (h₁ : Faithful l₁) (h₂ : Faithful l₂) :
    Faithful (l₁ ++ l₂) := by
  obtain ⟨a1, a2, a3, a4, a5, a6⟩ := h₁
  obtain ⟨b1, b2, b3, b4, b5, b6⟩ := h₂
  simp only [Faithful, written_append, writtenFrom_append, chunksRead_append]
  exact ⟨by rw [a1, b1], by rw [a2, b2], by rw [a3, b3], by rw [a4, b4], by rw [a5, b5]; rfl,
    by rw [a6, b6]; rfl⟩

theorem faithful_notes {l : List Ev} (hn : ∀ x ∈ l, x.isNote = true) : Faithful l := by
  simp only [Faithful, written_stdout_notes hn, writtenFrom_notes _ _ hn, chunksRead_notes _ hn]
  simp

/-- The events of one pass are faithful. -/
theorem loopBody_faithful (doclock : Nat) (s : Vars) (inp : IterIn) :
    Faithful (loopBody doclock s inp).2.1 := by
  refine loopBody_cases doclock s inp (fun b => Faithful b.2.1) ?_ ?_ ?_ ?_ ?_ ?_ ?_
  · intro s1 pre _ _ hn
    exact faithful_notes hn
  · intro s1 pre post tmo _ _ hq hn
    refine faithful_append (faithful_notes (notes_of_quiet hq)) ?_
    have : Ev.select s.pout s.perr tmo :: post = [Ev.select s.pout s.perr tmo] ++ post := rfl
    rw [this]
    refine faithful_append ?_ (faithful_notes hn)
    simp [Faithful, written, writtenFrom, chunksRead]
  · intro s1 pre tmo _ _ hq
    refine faithful_append (faithful_notes (notes_of_quiet hq)) ?_
    simp [Faithful, written, writtenFrom, chunksRead]
  · intro s1 pre tmo c ch _ _ hq _ hch
    refine faithful_append (faithful_notes (notes_of_quiet hq)) ?_
    cases c <;> simp [Faithful, written, writtenFrom, chunksRead, Chan.terminal, hch]
  · intro s1 pre tmo c _ _ hq _
    refine faithful_append (faithful_notes (notes_of_quiet hq)) ?_
    simp [Faithful, written, writtenFrom, chunksRead]
  · intro s1 pre tmo c e msg _ _ hq _ _
    refine faithful_append (faithful_notes (notes_of_quiet hq)) ?_
    simp [Faithful, written, writtenFrom, chunksRead]
  · intro s1 pre tmo c e msg _ _ hq _ _
    refine faithful_append (faithful_notes (notes_of_quiet hq)) ?_
    simp [Faithful, written, writtenFrom, chunksRead]

theorem runLoop_nil (doclock : Nat) (r : Run) : runLoop doclock r [] = r := rfl

theorem runLoop_reap (doclock : Nat) (r : Run) (inps : List IterIn) (h : r.next = .reap) :
    runLoop doclock r inps = r := by
  cases inps with
  | nil => rfl
  | cons inp inps => simp [runLoop, h]

theorem runLoop_again (doclock : Nat) (r : Run) (inp : IterIn) (inps : List IterIn)
    (h : r.next = .again) :
    runLoop doclock r (inp :: inps) =
      runLoop doclock
        { vars := (loopBody doclock r.vars inp).1,
          trace := r.trace ++ (loopBody doclock r.vars inp).2.1,
          next := (loopBody doclock r.vars inp).2.2 } inps := by
  simp [runLoop, h]

/-- An induction principle for runs: a property of runs that holds at the
start and is kept by every pass holds after any number of passes. -/
theorem runLoop_induct (doclock : Nat) (Q : Run → Prop)
    (step : ∀ (r : Run) (inp : IterIn), Q r → r.next = .again →
      Q { vars := (loopBody doclock r.vars inp).1,
          trace := r.trace ++ (loopBody doclock r.vars inp).2.1,
          next := (loopBody doclock r.vars inp).2.2 })
    (r : Run) (inps : List IterIn) (h : Q r) : Q (runLoop doclock r inps) := by
  induction inps generalizing r with
  | nil => exact h
  | cons inp inps ih =>
    cases hn : r.next with
    | reap => rw [runLoop_reap doclock r _ hn]; exact h
    | again =>
      rw [runLoop_again doclock r inp inps hn]
      exact ih _ (step r inp h hn)

theorem clockPart_not_due (doclock : Nat) (s : Vars) (inp : IterIn)
    (h : ¬ (doclock ≠ 0 ∧ remainingTime doclock s inp.tnow ≤ 0)) :
    (clockPart doclock s inp).2.2 = false := by
  by_cases hd : doclock = 0
  · subst hd
    rw [clockPart_off]
  · have hpos : 0 < remainingTime doclock s inp.tnow := by
      by_contra hcon
      exact h ⟨hd, by omega⟩
    rw [clockPart_wait doclock hd s inp hpos]

theorem clockPart_due (doclock : Nat) (s : Vars) (inp : IterIn)
    (h : doclock ≠ 0 ∧ remainingTime doclock s inp.tnow ≤ 0) :
    (clockPart doclock s inp).2.2 = true := by
  rw [clockPart_fire doclock h.1 s inp h.2]

/-- The reads a pass records are the chunks the environment handed to it: the
trace of a pass shows a chunk as read from channel `c` exactly when the pass
reads from `c` and the answer to its `read` is that chunk. -/
theorem loopBody_reads (doclock : Nat) (s : Vars) (inp : IterIn) (c : Chan) :
    chunksRead c (loopBody doclock s inp).2.1 = passChunk c doclock s inp := by
  obtain ⟨hp, he, hn, hq⟩ := clockPart_props doclock s inp
  by_cases hdue : doclock ≠ 0 ∧ remainingTime doclock s inp.tnow ≤ 0
  · rw [loopBody_fire doclock s inp (clockPart_due doclock s inp hdue)]
    have hnotes : ∀ x ∈ Ev.fflush .fp :: (clockPart doclock s inp).2.1, x.isNote = true := by
      intro x hx
      rcases List.mem_cons.1 hx with h | h
      · rw [h]; rfl
      · exact hn x h
    rw [chunksRead_notes c hnotes]
    unfold passChunk readChannel
    rw [if_pos hdue]
    simp
  · have hcp := clockPart_not_due doclock s inp hdue
    have hquiet : ∀ x ∈ Ev.fflush .fp :: (clockPart doclock s inp).2.1, x.isNote = true := by
      intro x hx
      rcases List.mem_cons.1 hx with h | h
      · rw [h]; rfl
      · exact hn x h
    rw [loopBody_go doclock s inp hcp]
    simp only []
    rw [chunksRead_append, chunksRead_notes c hquiet, List.nil_append]
    unfold passChunk readChannel
    rw [if_neg hdue]
    generalize (clockPart doclock s inp).1 = s1 at hp he
    cases hsel : inp.sel with
    | fail e msg =>
      rw [selectPart_fail doclock s1 inp e msg hsel]
      by_cases ht : e.transient = true <;> simp [chunksRead, demit, ht]
    | ready ro re =>
      cases hc : (s1.pout && ro) with
      | true =>
        rw [selectPart_out doclock s1 inp ro re hsel hc]
        rw [hp] at hc
        cases hrd : inp.rd with
        | data ch =>
          by_cases hch : ch = []
          · subst hch
            rw [readPart_eof_out]
            cases c <;> simp [chunksRead, hc]
          · rw [readPart_chunk s1 .out .stdout ch hch]
            cases c <;> simp [chunksRead, hc, hch]
        | fail e msg =>
          cases ht : e.transient with
          | true =>
            rw [readPart_transient s1 .out .stdout e msg ht]
            cases c <;> simp [chunksRead, hc]
          | false =>
            rw [readPart_hard s1 .out .stdout e msg ht]
            cases c <;> simp [chunksRead, hc]
      | false =>
        cases hc' : (s1.perr && re) with
        | true =>
          rw [selectPart_err doclock s1 inp ro re hsel hc hc']
          rw [hp] at hc
          rw [he] at hc'
          cases hrd : inp.rd with
          | data ch =>
            by_cases hch : ch = []
            · subst hch
              rw [readPart_eof_err]
              cases c <;> simp [chunksRead, hc, hc']
            · rw [readPart_chunk s1 .err .stderr ch hch]
              cases c <;> simp [chunksRead, hc, hc', hch]
          | fail e msg =>
            cases ht : e.transient with
            | true =>
              rw [readPart_transient s1 .err .stderr e msg ht]
              cases c <;> simp [chunksRead, hc, hc']
            | false =>
              rw [readPart_hard s1 .err .stderr e msg ht]
              cases c <;> simp [chunksRead, hc, hc']
        | false =>
          rw [selectPart_idle doclock s1 inp ro re hsel hc hc']
          rw [hp] at hc
          rw [he] at hc'
          simp [chunksRead, hc, hc']

theorem delivered_nil (c : Chan) (doclock : Nat) (r : Run) : delivered c doclock r [] = [] := by
  simp [delivered]

theorem delivered_reap (c : Chan) (doclock : Nat) (r : Run) (inps : List IterIn)
    (h : r.next = .reap) : delivered c doclock r inps = [] := by
  cases inps with
  | nil => simp [delivered]
  | cons inp inps => simp [delivered, h]

theorem delivered_again (c : Chan) (doclock : Nat) (r : Run) (inp : IterIn)
    (inps : List IterIn) (h : r.next = .again) :
    delivered c doclock r (inp :: inps) =
      passChunk c doclock r.vars inp
        ++ delivered c doclock
            { vars := (loopBody doclock r.vars inp).1,
              trace := r.trace ++ (loopBody doclock r.vars inp).2.1,
              next := (loopBody doclock r.vars inp).2.2 } inps := by
  simp [delivered, h]

/-- Over a run, the reads the trace records are the chunks the environment
delivered, in order. -/
theorem runLoop_reads (doclock : Nat) (c : Chan) (r : Run) (inps : List IterIn) :
    chunksRead c (runLoop doclock r inps).trace
      = chunksRead c r.trace ++ delivered c doclock r inps := by
  induction inps generalizing r with
  | nil => simp [runLoop_nil, delivered_nil]
  | cons inp inps ih =>
    cases hn : r.next with
    | reap => rw [runLoop_reap doclock r _ hn, delivered_reap c doclock r _ hn]; simp
    | again =>
      rw [runLoop_again doclock r inp inps hn, delivered_again c doclock r inp inps hn, ih]
      simp only [chunksRead_append, loopBody_reads, List.append_assoc]

/-- A pass in which the child's stdout is open and ready and the read returns
a non-empty chunk, without clock messages. -/
theorem loopBody_stdout_chunk (s : Vars) (ch : Bytes) (hopen : s.pout = true) (hch : ch ≠ []) :
    loopBody 0 s (readAnswer true false ch) =
      (s, [Ev.fflush .fp, Ev.select s.pout s.perr none, Ev.read .out (.data ch),
           Ev.write .stdout (some .out) ch, Ev.write .fp (some .out) ch, Ev.fflush .stdout],
        .again) := by
  have hcp : (clockPart 0 s (readAnswer true false ch)).2.2 = false := by
    rw [clockPart_off]
  rw [loopBody_go 0 s _ hcp, clockPart_off]
  simp only []
  rw [selectPart_out 0 s (readAnswer true false ch) true false rfl (by simp [hopen])]
  have hrd : (readAnswer true false ch).rd = .data ch := rfl
  rw [hrd, readPart_chunk s .out .stdout ch hch]
  simp [hopen]

/-- When every answer is a non-empty chunk on the child's stdout, the chunks
delivered from stdout are those chunks. -/
theorem delivered_stdout_stream (chunks : List Bytes) (r : Run)
    (hne : ∀ ch ∈ chunks, ch ≠ []) (hopen : r.vars.pout = true) (hn : r.next = .again) :
    delivered .out 0 r (chunks.map (readAnswer true false)) = chunks := by
  induction chunks generalizing r with
  | nil => simp [delivered]
  | cons ch rest ih =>
    have hch : ch ≠ [] := hne ch (List.mem_cons_self _ _)
    have hpass : passChunk .out 0 r.vars (readAnswer true false ch) = [ch] := by
      simp [passChunk, readChannel, readAnswer, hopen, hch]
    rw [List.map_cons, delivered_again .out 0 r _ _ hn,
      loopBody_stdout_chunk r.vars ch hopen hch, hpass]
    simp only []
    rw [ih]
    · rfl
    · exact fun c hc => hne c (List.mem_cons_of_mem _ hc)
    · exact hopen
    · rfl

/-- When every answer is a non-empty chunk on the child's stdout, the log
receives those chunks and nothing else. -/
theorem written_fp_stdout_stream (chunks : List Bytes) (r : Run)
    (hne : ∀ ch ∈ chunks, ch ≠ []) (hopen : r.vars.pout = true) (hn : r.next = .again) :
    written .fp (runLoop 0 r (chunks.map (readAnswer true false))).trace
      = written .fp r.trace ++ chunks := by
  induction chunks generalizing r with
  | nil => simp [runLoop_nil]
  | cons ch rest ih =>
    have hch : ch ≠ [] := hne ch (List.mem_cons_self _ _)
    rw [List.map_cons, runLoop_again 0 r _ _ hn, loopBody_stdout_chunk r.vars ch hopen hch]
    simp only []
    rw [ih]
    · simp [written, List.filterMap_append]
    · exact fun c hc => hne c (List.mem_cons_of_mem _ hc)
    · exact hopen
    · rfl

/-- C3. Byte fidelity per channel.  In every run of the loop from its start,
whatever the environment answers: the byte strings written to the terminal's
stdout are exactly the chunks the environment delivered to the reads on the
child's stdout, one write per chunk and in order, and so are the byte strings
written to the log out of those reads; likewise the chunks delivered from the
child's stderr go, unchanged and in order, to the terminal's stderr and to the
log; the reads the trace records are those delivered chunks; hence the
concatenations agree as well.  In a single pass that reads a non-empty chunk
from a channel, that chunk is what is written to the channel's terminal stream
and to the log.  In particular, when the child's output is a sequence of
non-empty chunks on stdout, the terminal's stdout and the log receive exactly
that sequence. -/
theorem byte_fidelity (doclock : Nat) (t0 tstart : Int) (inps : List IterIn) :
    written .stdout (runLoop doclock (loopInit t0 tstart) inps).trace
      = delivered .out doclock (loopInit t0 tstart) inps ∧
    writtenFrom .out .fp (runLoop doclock (loopInit t0 tstart) inps).trace
      = delivered .out doclock (loopInit t0 tstart) inps ∧
    writtenFrom .err .stderr (runLoop doclock (loopInit t0 tstart) inps).trace
      = delivered .err doclock (loopInit t0 tstart) inps ∧
    writtenFrom .err .fp (runLoop doclock (loopInit t0 tstart) inps).trace
      = delivered .err doclock (loopInit t0 tstart) inps ∧
    chunksRead .out (runLoop doclock (loopInit t0 tstart) inps).trace
      = delivered .out doclock (loopInit t0 tstart) inps ∧
    chunksRead .err (runLoop doclock (loopInit t0 tstart) inps).trace
      = delivered .err doclock (loopInit t0 tstart) inps ∧
    written .stdout (runLoop doclock (loopInit t0 tstart) inps).trace
      = chunksRead .out (runLoop doclock (loopInit t0 tstart) inps).trace ∧
    writtenFrom .out .fp (runLoop doclock (loopInit t0 tstart) inps).trace
      = chunksRead .out (runLoop doclock (loopInit t0 tstart) inps).trace ∧
    writtenFrom .err .stderr (runLoop doclock (loopInit t0 tstart) inps).trace
      = chunksRead .err (runLoop doclock (loopInit t0 tstart) inps).trace ∧
    writtenFrom .err .fp (runLoop doclock (loopInit t0 tstart) inps).trace
      = chunksRead .err (runLoop doclock (loopInit t0 tstart) inps).trace ∧
    (written .stdout (runLoop doclock (loopInit t0 tstart) inps).trace).flatten
      = (delivered .out doclock (loopInit t0 tstart) inps).flatten ∧
    (writtenFrom .out .fp (runLoop doclock (loopInit t0 tstart) inps).trace).flatten
      = (delivered .out doclock (loopInit t0 tstart) inps).flatten ∧
    (writtenFrom .err .stderr (runLoop doclock (loopInit t0 tstart) inps).trace).flatten
      = (delivered .err doclock (loopInit t0 tstart) inps).flatten ∧
    (writtenFrom .err .fp (runLoop doclock (loopInit t0 tstart) inps).trace).flatten
      = (delivered .err doclock (loopInit t0 tstart) inps).flatten ∧
    (∀ (s : Vars) (inp : IterIn) (c : Chan) (chunk : Bytes),
      readChannel doclock s inp = some c → inp.rd = .data chunk → chunk ≠ [] →
        writtenFrom c .fp (loopBody doclock s inp).2.1 = [chunk] ∧
        (c = .out → written .stdout (loopBody doclock s inp).2.1 = [chunk]) ∧
        (c = .err → writtenFrom .err .stderr (loopBody doclock s inp).2.1 = [chunk])) ∧
    (∀ chunks : List Bytes, (∀ ch ∈ chunks, ch ≠ []) →
      written .stdout
          (runLoop 0 (loopInit t0 tstart) (chunks.map (readAnswer true false))).trace = chunks ∧
      writtenFrom .out .fp
          (runLoop 0 (loopInit t0 tstart) (chunks.map (readAnswer true false))).trace = chunks ∧
      (written .fp
          (runLoop 0 (loopInit t0 tstart) (chunks.map (readAnswer true false))).trace).flatten
        = chunks.flatten) := by
  have faith : ∀ (d : Nat) (l : List IterIn),
      Faithful (runLoop d (loopInit t0 tstart) l).trace := by
    intro d l
    refine runLoop_induct d (fun r => Faithful r.trace) ?_ _ l faithful_nil
    intro r inp hr _
    exact faithful_append hr (loopBody_faithful d r.vars inp)
  have reads : ∀ (d : Nat) (c : Chan) (l : List IterIn),
      chunksRead c (runLoop d (loopInit t0 tstart) l).trace
        = delivered c d (loopInit t0 tstart) l := by
    intro d c l
    rw [runLoop_reads d c (loopInit t0 tstart) l]
    simp [loopInit, chunksRead]
  obtain ⟨h1, h2, h3, h4, _, _⟩ := faith doclock inps
  have r1 := reads doclock .out inps
  have r2 := reads doclock .err inps
  refine ⟨by rw [h1, r1], by rw [h2, r1], by rw [h3, r2], by rw [h4, r2], r1, r2, h1, h2, h3, h4,
    by rw [h1, r1], by rw [h2, r1], by rw [h3, r2], by rw [h4, r2], ?_, ?_⟩
  · intro s inp c chunk hread hrd hch
    obtain ⟨g1, g2, g3, g4, _, _⟩ := loopBody_faithful doclock s inp
    have hpass : ∀ c', chunksRead c' (loopBody doclock s inp).2.1
        = if c' = c then [chunk] else [] := by
      intro c'
      rw [loopBody_reads]
      unfold passChunk
      rw [hread, hrd]
      by_cases hcc : c' = c
      · simp [hcc, hch]
      · have : ¬ (some c = some c') := fun h => hcc (Option.some.inj h).symm
        simp [hcc, this]
    cases c
    · refine ⟨?_, fun _ => ?_, fun h => Chan.noConfusion h⟩
      · rw [g2, hpass .out]; simp
      · rw [g1, hpass .out]; simp
    · refine ⟨?_, fun h => Chan.noConfusion h, fun _ => ?_⟩
      · rw [g4, hpass .err]; simp
      · rw [g3, hpass .err]; simp
  · intro chunks hne
    obtain ⟨k1, k2, _, _, _, _⟩ := faith 0 (chunks.map (readAnswer true false))
    have k := reads 0 .out (chunks.map (readAnswer true false))
    rw [delivered_stdout_stream chunks (loopInit t0 tstart) hne rfl rfl] at k
    refine ⟨by rw [k1, k], by rw [k2, k], ?_⟩
    rw [written_fp_stdout_stream chunks (loopInit t0 tstart) hne rfl rfl]
    simp [loopInit, written]

/-- C3 on five passes in which the environment delivers `ab` on the child's
stdout, `E` on its stderr, an interrupted read, `cd` on stdout and end of file:
the terminal's stdout and the log get `ab` and `cd`, the terminal's stderr gets
`E`; and a child whose whole output is `hello` on stdout has `hello` written to
the terminal's stdout and as the whole content of the log. -/
theorem byte_fidelity_witness :
    delivered .out 0 (loopInit 0 0) demoAnswers = ["ab".toList, "cd".toList] ∧
    delivered .err 0 (loopInit 0 0) demoAnswers = ["E".toList] ∧
    written .stdout (runLoop 0 (loopInit 0 0) demoAnswers).trace
      = ["ab".toList, "cd".toList] ∧
    writtenFrom .out .fp (runLoop 0 (loopInit 0 0) demoAnswers).trace
      = ["ab".toList, "cd".toList] ∧
    writtenFrom .err .stderr (runLoop 0 (loopInit 0 0) demoAnswers).trace = ["E".toList] ∧
    writtenFrom .err .fp (runLoop 0 (loopInit 0 0) demoAnswers).trace = ["E".toList] ∧
    written .stdout
        (runLoop 0 (loopInit 0 0) (["hello".toList].map (readAnswer true false))).trace
      = ["hello".toList] ∧
    (written .fp
        (runLoop 0 (loopInit 0 0) (["hello".toList].map (readAnswer true false))).trace).flatten
      = "hello".toList := by
  obtain ⟨h1, h2, h3, h4, _, _, _, _, _, _, _, _, _, _, _, h16⟩ :=
    byte_fidelity 0 0 0 demoAnswers
  have hout : delivered .out 0 (loopInit 0 0) demoAnswers = ["ab".toList, "cd".toList] := by
    decide
  have herr : delivered .err 0 (loopInit 0 0) demoAnswers = ["E".toList] := by
    decide
  obtain ⟨k1, _, k3⟩ := h16 ["hello".toList] (by decide)
  exact ⟨hout, herr, h1.trans hout, h2.trans hout, h3.trans herr, h4.trans herr, k1, k3⟩

set_option maxHeartbeats 1000000 in
/-- What one pass does to the channels. -/
theorem loopBody_channels (doclock : Nat) (s : Vars) (inp : IterIn) (c : Chan) :
    ((s.isOpen c = true ∧ (loopBody doclock s inp).1.isOpen c = false) ↔
      Ev.read c (.data []) ∈ (loopBody doclock s inp).2.1) ∧
    (Ev.close c ∈ (loopBody doclock s inp).2.1 ↔
      Ev.read c (.data []) ∈ (loopBody doclock s inp).2.1) ∧
    (s.isOpen c = false →
      (loopBody doclock s inp).1.isOpen c = false ∧
      (∀ r, Ev.read c r ∉ (loopBody doclock s inp).2.1) ∧
      Ev.close c ∉ (loopBody doclock s inp).2.1) ∧
    (∀ wo we tmo, Ev.select wo we tmo ∈ (loopBody doclock s inp).2.1 →
      wo = s.pout ∧ we = s.perr) ∧
    ((s.pout = true ∨ s.perr = true) →
      ((loopBody doclock s inp).2.2 = .reap ↔
        (loopBody doclock s inp).1.pout = false ∧ (loopBody doclock s inp).1.perr = false)) := by
  refine loopBody_cases doclock s inp
    (fun b =>
      ((s.isOpen c = true ∧ b.1.isOpen c = false) ↔ Ev.read c (.data []) ∈ b.2.1) ∧
      (Ev.close c ∈ b.2.1 ↔ Ev.read c (.data []) ∈ b.2.1) ∧
      (s.isOpen c = false →
        b.1.isOpen c = false ∧ (∀ r, Ev.read c r ∉ b.2.1) ∧ Ev.close c ∉ b.2.1) ∧
      (∀ wo we tmo, Ev.select wo we tmo ∈ b.2.1 → wo = s.pout ∧ we = s.perr) ∧
      ((s.pout = true ∨ s.perr = true) →
        (b.2.2 = .reap ↔ b.1.pout = false ∧ b.1.perr = false))) ?_ ?_ ?_ ?_ ?_ ?_ ?_
  · intro s1 pre hp he hn
    have hr : ∀ c r, Ev.read c r ∉ pre := fun c r => not_mem_of_notes hn _ rfl
    have hc : ∀ c, Ev.close c ∉ pre := fun c => not_mem_of_notes hn _ rfl
    have hs : ∀ wo we tmo, Ev.select wo we tmo ∉ pre := fun _ _ _ => not_mem_of_notes hn _ rfl
    cases hpo : s.pout <;> cases hpe : s.perr <;> cases c <;> simp_all [Vars.isOpen]
  · intro s1 pre post tmo hp he hq hn
    have hr : ∀ c r, Ev.read c r ∉ pre := fun c r => not_mem_of_quiet hq _ rfl
    have hc : ∀ c, Ev.close c ∉ pre := fun c => not_mem_of_quiet hq _ rfl
    have hs : ∀ wo we tmo, Ev.select wo we tmo ∉ pre := fun _ _ _ => not_mem_of_quiet hq _ rfl
    have hr' : ∀ c r, Ev.read c r ∉ post := fun c r => not_mem_of_notes hn _ rfl
    have hc' : ∀ c, Ev.close c ∉ post := fun c => not_mem_of_notes hn _ rfl
    have hs' : ∀ wo we tmo, Ev.select wo we tmo ∉ post :=
      fun _ _ _ => not_mem_of_notes hn _ rfl
    cases hpo : s.pout <;> cases hpe : s.perr <;> cases c <;> simp_all [Vars.isOpen]
  · intro s1 pre tmo hp he hq
    have hr : ∀ c r, Ev.read c r ∉ pre := fun c r => not_mem_of_quiet hq _ rfl
    have hc : ∀ c, Ev.close c ∉ pre := fun c => not_mem_of_quiet hq _ rfl
    have hs : ∀ wo we tmo, Ev.select wo we tmo ∉ pre := fun _ _ _ => not_mem_of_quiet hq _ rfl
    cases hpo : s.pout <;> cases hpe : s.perr <;> cases c <;> simp_all [Vars.isOpen]
  · intro s1 pre tmo c' ch hp he hq ho hch
    have hr : ∀ c r, Ev.read c r ∉ pre := fun c r => not_mem_of_quiet hq _ rfl
    have hc : ∀ c, Ev.close c ∉ pre := fun c => not_mem_of_quiet hq _ rfl
    have hs : ∀ wo we tmo, Ev.select wo we tmo ∉ pre := fun _ _ _ => not_mem_of_quiet hq _ rfl
    cases hpo : s.pout <;> cases hpe : s.perr <;> cases c <;> cases c' <;>
      simp_all [Vars.isOpen, Chan.terminal]
  · intro s1 pre tmo c' hp he hq ho
    have hr : ∀ c r, Ev.read c r ∉ pre := fun c r => not_mem_of_quiet hq _ rfl
    have hc : ∀ c, Ev.close c ∉ pre := fun c => not_mem_of_quiet hq _ rfl
    have hs : ∀ wo we tmo, Ev.select wo we tmo ∉ pre := fun _ _ _ => not_mem_of_quiet hq _ rfl
    cases hpo : s.pout <;> cases hpe : s.perr <;> cases c <;> cases c' <;>
      simp_all [Vars.isOpen, Vars.closeChan, Chan.other]
  · intro s1 pre tmo c' e msg hp he hq ho _
    have hr : ∀ c r, Ev.read c r ∉ pre := fun c r => not_mem_of_quiet hq _ rfl
    have hc : ∀ c, Ev.close c ∉ pre := fun c => not_mem_of_quiet hq _ rfl
    have hs : ∀ wo we tmo, Ev.select wo we tmo ∉ pre := fun _ _ _ => not_mem_of_quiet hq _ rfl
    cases hpo : s.pout <;> cases hpe : s.perr <;> cases c <;> cases c' <;>
      simp_all [Vars.isOpen]
  · intro s1 pre tmo c' e msg hp he hq ho _
    generalize "read failed: ".toList ++ msg ++ "\r\n".toList = m
    have hr : ∀ c r, Ev.read c r ∉ pre := fun c r => not_mem_of_quiet hq _ rfl
    have hc : ∀ c, Ev.close c ∉ pre := fun c => not_mem_of_quiet hq _ rfl
    have hs : ∀ wo we tmo, Ev.select wo we tmo ∉ pre := fun _ _ _ => not_mem_of_quiet hq _ rfl
    cases hpo : s.pout <;> cases hpe : s.perr <;> cases c <;> cases c' <;>
      simp_all [Vars.isOpen]

/-- From the start of the loop, it has left for the reap loop exactly when
both channels are closed. -/
theorem runLoop_reap_iff (doclock : Nat) (t0 tstart : Int) (inps : List IterIn) :
    (runLoop doclock (loopInit t0 tstart) inps).next = .reap ↔
      (runLoop doclock (loopInit t0 tstart) inps).vars.pout = false ∧
      (runLoop doclock (loopInit t0 tstart) inps).vars.perr = false := by
  refine runLoop_induct doclock
    (fun r => r.next = .reap ↔ r.vars.pout = false ∧ r.vars.perr = false) ?_ _ inps ?_
  · intro r inp hr hn
    have hopen : r.vars.pout = true ∨ r.vars.perr = true := by
      by_contra hcon
      have hboth : r.vars.pout = false ∧ r.vars.perr = false := by
        cases h1 : r.vars.pout <;> cases h2 : r.vars.perr <;> simp_all
      have := hr.2 hboth
      rw [hn] at this
      exact Next.noConfusion this
    exact (loopBody_channels doclock r.vars inp .out).2.2.2.2 hopen
  · simp [loopInit]

/-- Once a channel is closed it stays closed, and whatever the loop does
afterwards includes no read on it and no `select` that watches it. -/
theorem runLoop_closed (doclock : Nat) (c : Chan) (r : Run) (inps : List IterIn)
    (hcl : r.vars.isOpen c = false) :
    (runLoop doclock r inps).vars.isOpen c = false ∧
    ∃ ext, (runLoop doclock r inps).trace = r.trace ++ ext ∧
      (∀ rd, Ev.read c rd ∉ ext) ∧
      (∀ wo we tmo, Ev.select wo we tmo ∈ ext → watches c wo we = false) := by
  refine runLoop_induct doclock
    (fun r' => r'.vars.isOpen c = false ∧
      ∃ ext, r'.trace = r.trace ++ ext ∧ (∀ rd, Ev.read c rd ∉ ext) ∧
        (∀ wo we tmo, Ev.select wo we tmo ∈ ext → watches c wo we = false)) ?_ r inps ?_
  · rintro r' inp ⟨hc', ext, htr, hrd, hsel⟩ _
    obtain ⟨_, _, h3, h4, _⟩ := loopBody_channels doclock r'.vars inp c
    obtain ⟨g1, g2, _⟩ := h3 hc'
    refine ⟨g1, ext ++ (loopBody doclock r'.vars inp).2.1, ?_, ?_, ?_⟩
    · simp only [htr, List.append_assoc]
    · intro rd hmem
      rcases List.mem_append.1 hmem with h | h
      · exact hrd rd h
      · exact g2 rd h
    · intro wo we tmo hmem
      rcases List.mem_append.1 hmem with h | h
      · exact hsel wo we tmo h
      · obtain ⟨e1, e2⟩ := h4 wo we tmo h
        cases c
        · simpa [watches, e1, Vars.isOpen] using hc'
        · simpa [watches, e2, Vars.isOpen] using hc'
  · exact ⟨hcl, [], by simp, by simp, by simp⟩

/-- C6. End-of-stream detection and channel state.  In every pass a channel
goes from open to closed if and only if the read made on that channel in that
pass returned zero bytes, and that is when the pass closes its descriptor.  A
closed channel stays closed, is not read and is not in the descriptor set of
`select`, in that pass and in every later one; the descriptor set is the set
of open channels.  From the start of the loop, the loop has left for the reap
loop exactly when both channels are closed. -/
theorem channel_state (doclock : Nat) (s : Vars) (inp : IterIn) (c : Chan) :
    ((s.isOpen c = true ∧ (loopBody doclock s inp).1.isOpen c = false) ↔
      Ev.read c (.data []) ∈ (loopBody doclock s inp).2.1) ∧
    (Ev.close c ∈ (loopBody doclock s inp).2.1 ↔
      Ev.read c (.data []) ∈ (loopBody doclock s inp).2.1) ∧
    (s.isOpen c = false →
      (loopBody doclock s inp).1.isOpen c = false ∧
      (∀ r, Ev.read c r ∉ (loopBody doclock s inp).2.1) ∧
      Ev.close c ∉ (loopBody doclock s inp).2.1) ∧
    (∀ wo we tmo, Ev.select wo we tmo ∈ (loopBody doclock s inp).2.1 →
      wo = s.pout ∧ we = s.perr) ∧
    (∀ (r : Run) (inps : List IterIn), r.vars.isOpen c = false →
      (runLoop doclock r inps).vars.isOpen c = false ∧
      ∃ ext, (runLoop doclock r inps).trace = r.trace ++ ext ∧
        (∀ rd, Ev.read c rd ∉ ext) ∧
        (∀ wo we tmo, Ev.select wo we tmo ∈ ext → watches c wo we = false)) ∧
    ((s.pout = true ∨ s.perr = true) →
      ((loopBody doclock s inp).2.2 = .reap ↔
        (loopBody doclock s inp).1.pout = false ∧ (loopBody doclock s inp).1.perr = false)) ∧
    (∀ (t0 tstart : Int) (inps : List IterIn),
      (runLoop doclock (loopInit t0 tstart) inps).next = .reap ↔
        (runLoop doclock (loopInit t0 tstart) inps).vars.pout = false ∧
        (runLoop doclock (loopInit t0 tstart) inps).vars.perr = false) := by
  obtain ⟨h1, h2, h3, h4, h5⟩ := loopBody_channels doclock s inp c
  exact ⟨h1, h2, h3, h4, fun r inps hcl => runLoop_closed doclock c r inps hcl, h5,
    fun t0 tstart inps => runLoop_reap_iff doclock t0 tstart inps⟩

/-- C6 on a pass that reads end of file from the child's stdout while its
stderr is still open: stdout goes from open to closed and the loop goes on. -/
theorem channel_state_witness :
    (loopBody 0 varsAt100 (readAnswer true false [])).1.pout = false ∧
    (loopBody 0 varsAt100 (readAnswer true false [])).2.2 = .again :=
  have h := channel_state 0 varsAt100 (readAnswer true false []) .out
  ⟨(h.1.2 (by decide)).2, by
    cases hn : (loopBody 0 varsAt100 (readAnswer true false [])).2.2 with
    | again => rfl
    | reap => exact absurd ((h.2.2.2.2.2.1 (Or.inl rfl)).1 hn).2 (by decide)⟩

/-! ## `spacepaste`: the claims -/

theorem memcpyAt_length (buf : Bytes) (pos : Nat) (src : Bytes)
    (h : pos + src.length ≤ buf.length) : (memcpyAt buf pos src).length = buf.length := by
  simp [memcpyAt]
  omega

theorem memcpyAt_take (buf : Bytes) (pos : Nat) (src : Bytes) (h : pos ≤ buf.length) :
    (memcpyAt buf pos src).take (pos + src.length) = buf.take pos ++ src := by
  unfold memcpyAt
  apply List.take_left'
  simp
  omega

theorem set_take_succ (buf : Bytes) (pos : Nat) (ch : Char) (h : pos < buf.length) :
    (buf.set pos ch).take (pos + 1) = buf.take pos ++ [ch] := by
  rw [List.set_eq_take_append_cons_drop, if_pos h]
  have : buf.take pos ++ ch :: buf.drop (pos + 1) = (buf.take pos ++ [ch]) ++ buf.drop (pos + 1) := by
    simp
  rw [this]
  apply List.take_left'
  simp
  omega

theorem spacepasteStep_length (buflen : Int) (buf : Bytes) (pos : Int) (a : Bytes)
    (hlen : buf.length = buflen.toNat) (hpos : 0 ≤ pos) :
    (spacepasteStep buflen (buf, pos) a).1.length = buflen.toNat := by
  have hset : ∀ (b : Bytes) (n : Nat) (ch : Char), b.length = buflen.toNat →
      (if pos < buflen then b.set n ch else b).length = buflen.toNat := by
    intro b n ch hb
    split_ifs
    · rw [List.length_set, hb]
    · exact hb
  simp only [spacepasteStep]
  by_cases h1 : pos > 0
  · simp only [h1, if_true]
    by_cases h3 : pos + 1 + (a.length : Int) < buflen
    · simp only [h3, if_true]
      rw [memcpyAt_length _ _ _ (by rw [hset _ _ _ hlen]; omega), hset _ _ _ hlen]
    · simp only [h3, if_false]
      exact hset _ _ _ hlen
  · simp only [h1, if_false]
    by_cases h3 : pos + (a.length : Int) < buflen
    · simp only [h3, if_true]
      rw [memcpyAt_length _ _ _ (by rw [hlen]; omega), hlen]
    · simp only [h3, if_false]
      exact hlen

theorem set_take_self (buf : Bytes) (pos : Nat) (ch : Char) (h : pos < buf.length) :
    (buf.set pos ch).take pos = buf.take pos := by
  rw [List.set_eq_take_append_cons_drop, if_pos h]
  apply List.take_left'
  simp
  omega

/-- The invariant of the loop of `spacepaste`. -/
theorem spacepaste_loop (buflen : Int) (argv : List Bytes) (buf acc : Bytes) (pos : Int)
    (hlen : buf.length = buflen.toNat) (hpos : pos = acc.length)
    (hbuf : pos < buflen → buf.take acc.length = acc) :
    (argv.foldl (spacepasteStep buflen) (buf, pos)).2 = (pastedFrom acc argv).length ∧
    (argv.foldl (spacepasteStep buflen) (buf, pos)).1.length = buflen.toNat ∧
    (((pastedFrom acc argv).length : Int) < buflen →
      (argv.foldl (spacepasteStep buflen) (buf, pos)).1.take (pastedFrom acc argv).length
        = pastedFrom acc argv) := by
  induction argv generalizing buf acc pos with
  | nil => exact ⟨hpos, hlen, fun h => hbuf (by rw [hpos]; exact h)⟩
  | cons a rest ih =>
    simp only [List.foldl_cons, pastedFrom]
    apply ih
    · exact spacepasteStep_length buflen buf pos a hlen (by omega)
    · simp only [spacepasteStep]
      by_cases h1 : pos > 0
      · have : acc.length > 0 := by omega
        simp [h1, this, hpos]
        omega
      · have : ¬ acc.length > 0 := by omega
        simp [h1, this, hpos]
    · intro hlt
      simp only [spacepasteStep] at hlt ⊢
      by_cases h1 : pos > 0
      · have hacc : acc.length > 0 := by omega
        simp only [h1, if_true] at hlt ⊢
        have h2 : pos < buflen := by omega
        have h3 : pos + 1 + (a.length : Int) < buflen := hlt
        simp only [h2, h3, if_true, hacc]
        have hb := hbuf h2
        have hp : pos.toNat = acc.length := by omega
        have hp1 : (pos + 1).toNat = acc.length + 1 := by omega
        rw [hp, hp1]
        have e : (acc ++ [' '] ++ a).length = (acc.length + 1) + a.length := by
          simp only [List.length_append, List.length_singleton]
        rw [e, memcpyAt_take _ _ _ (by rw [List.length_set, hlen]; omega),
          set_take_succ _ _ _ (by rw [hlen]; omega), hb]
      · have hacc : ¬ acc.length > 0 := by omega
        have hnil : acc = [] := List.length_eq_zero.1 (by omega)
        have hp0 : pos = 0 := by omega
        subst hnil
        subst hp0
        simp only [h1, if_false] at hlt ⊢
        have h3 : (0 : Int) + (a.length : Int) < buflen := hlt
        simp only [h3, if_true, hacc, if_false]
        have := memcpyAt_take buf 0 a (by omega)
        simpa using this

/-- What `spacepaste` returns and leaves in the buffer, for every argument
vector and buffer: it succeeds exactly when what its loop puts together, with
the terminator, fits in `buflen` bytes, and the buffer then holds that string
and the terminator. -/
theorem spacepaste_builds (buf : Bytes) (buflen : Int) (argv : List Bytes)
    (hlen : buf.length = buflen.toNat) :
    (((pasted argv).length : Int) < buflen →
      (spacepaste buf buflen argv argv.length).1 = (pasted argv).length ∧
      (spacepaste buf buflen argv argv.length).2.take (pasted argv).length = pasted argv ∧
      (spacepaste buf buflen argv argv.length).2[(pasted argv).length]? = some (Char.ofNat 0) ∧
      (spacepaste buf buflen argv argv.length).2.length = buf.length) ∧
    (buflen ≤ ((pasted argv).length : Int) →
      (spacepaste buf buflen argv argv.length).1 = -1) := by
  obtain ⟨h1, h2, h3⟩ := spacepaste_loop buflen argv buf [] 0 hlen rfl (fun _ => by simp)
  have htake : argv.take (Int.toNat (argv.length : Int)) = argv := by
    simp
  unfold spacepaste
  rw [htake]
  have hp : pastedFrom [] argv = pasted argv := rfl
  rw [hp] at h1 h3
  simp only [h1, Int.toNat_ofNat]
  constructor
  · intro hlt
    rw [if_pos hlt]
    refine ⟨rfl, ?_, ?_, ?_⟩
    · show List.take _ (List.set _ _ _) = _
      rw [set_take_self _ _ _ (by rw [h2]; omega)]
      exact h3 hlt
    · show (List.set _ _ _)[_]? = _
      rw [List.getElem?_set_self]
      rw [h2]; omega
    · show (List.set _ _ _).length = _
      rw [List.length_set, h2, hlen]
  · intro hge
    rw [if_neg (by omega)]

theorem pastedFrom_of_ne_nil (acc : Bytes) (rest : List Bytes) (h : acc ≠ []) :
    pastedFrom acc rest = acc ++ (rest.map (fun a => ' ' :: a)).flatten := by
  induction rest generalizing acc with
  | nil => simp [pastedFrom]
  | cons a rest ih =>
    have hpos : acc.length > 0 := List.length_pos.2 h
    have hstep : pastedFrom acc (a :: rest) = pastedFrom (acc ++ [' '] ++ a) rest := by
      simp [pastedFrom, hpos]
    rw [hstep, ih _ (by simp)]
    simp

theorem spaceJoined_cons (a : Bytes) (rest : List Bytes) :
    spaceJoined (a :: rest) = a ++ (rest.map (fun b => ' ' :: b)).flatten := by
  induction rest generalizing a with
  | nil => simp [spaceJoined, List.intercalate, List.intersperse]
  | cons b rest ih =>
    have := ih b
    simp only [spaceJoined, List.intercalate, List.intersperse, List.flatten_cons] at this ⊢
    rw [this]
    simp

/-- Unless the first argument is empty, what the loop of `spacepaste` puts
together is the arguments joined with one space between neighbours. -/
theorem pasted_eq_spaceJoined (argv : List Bytes) (h : argv.head? ≠ some []) :
    pasted argv = spaceJoined argv := by
  cases argv with
  | nil => rfl
  | cons a rest =>
    have ha : a ≠ [] := by
      intro hc
      apply h
      simp [hc]
    have hstep : pasted (a :: rest) = pastedFrom a rest := by
      simp [pasted, pastedFrom]
    rw [hstep, pastedFrom_of_ne_nil a rest ha, spaceJoined_cons]

/-- C10, evaluated where the code departs from it.  For the two arguments `""`
and `"ls"` and a buffer of 8 bytes, `spacepaste` succeeds, returns 2 and leaves
`ls` and the terminator in the buffer; the arguments joined with one space
between them are ` ls`, of length 3.  The space is left out because the loop
tests `pos > 0` to tell the first argument from the others. -/
theorem spacepaste_empty_first_argument :
    spacepaste (List.replicate 8 '#') 8 [[], "ls".toList] 2 =
      (2, "ls".toList ++ [Char.ofNat 0] ++ List.replicate 5 '#') ∧
    spaceJoined [[], "ls".toList] = " ls".toList ∧
    (spaceJoined [[], "ls".toList]).length = 3 := by
  decide

theorem memcpyAt_drop (buf : Bytes) (pos : Nat) (src : Bytes) (N : Nat)
    (h : pos + src.length ≤ N) (hN : N ≤ buf.length) :
    (memcpyAt buf pos src).drop N = buf.drop N := by
  unfold memcpyAt
  have hl : (buf.take pos ++ src).length = pos + src.length := by
    simp
    omega
  have hN' : N = (buf.take pos ++ src).length + (N - (pos + src.length)) := by omega
  rw [hN', List.drop_append, List.drop_drop, hl]

theorem set_drop (buf : Bytes) (pos : Nat) (ch : Char) (N : Nat) (h : pos < N) :
    (buf.set pos ch).drop N = buf.drop N := by
  rw [List.drop_set_of_lt _ _ h]

/-- One pass of the loop of `spacepaste` leaves the length of the buffer, and
every byte from index `buflen` on, as they were. -/
theorem spacepasteStep_bounds (buflen : Int) (buf : Bytes) (pos : Int) (a : Bytes)
    (hN : buflen.toNat ≤ buf.length) (hpos : 0 ≤ pos) :
    (spacepasteStep buflen (buf, pos) a).1.length = buf.length ∧
    (spacepasteStep buflen (buf, pos) a).1.drop buflen.toNat = buf.drop buflen.toNat ∧
    0 ≤ (spacepasteStep buflen (buf, pos) a).2 := by
  have hset : ∀ (n : Nat) (ch : Char), (pos < buflen → n < buflen.toNat) →
      (if pos < buflen then buf.set n ch else buf).length = buf.length ∧
      (if pos < buflen then buf.set n ch else buf).drop buflen.toNat = buf.drop buflen.toNat := by
    intro n ch hn
    split_ifs with h
    · exact ⟨List.length_set _ _ _, set_drop _ _ _ _ (hn h)⟩
    · exact ⟨rfl, rfl⟩
  simp only [spacepasteStep]
  by_cases h1 : pos > 0
  · simp only [h1, if_true]
    obtain ⟨e1, e2⟩ := hset pos.toNat ' ' (by intro h; omega)
    by_cases h3 : pos + 1 + (a.length : Int) < buflen
    · simp only [h3, if_true]
      refine ⟨?_, ?_, by omega⟩
      · rw [memcpyAt_length _ _ _ (by rw [e1]; omega), e1]
      · rw [memcpyAt_drop _ _ _ _ (by omega) (by rw [e1]; exact hN), e2]
    · simp only [h3, if_false]
      exact ⟨e1, e2, by omega⟩
  · simp only [h1, if_false]
    by_cases h3 : pos + (a.length : Int) < buflen
    · simp only [h3, if_true]
      refine ⟨?_, ?_, by omega⟩
      · rw [memcpyAt_length _ _ _ (by omega)]
      · rw [memcpyAt_drop _ _ _ _ (by omega) hN]
    · simp only [h3, if_false]
      exact ⟨trivial, trivial, by omega⟩

theorem spacepaste_loop_bounds (buflen : Int) (argv : List Bytes) (buf : Bytes) (pos : Int)
    (hN : buflen.toNat ≤ buf.length) (hpos : 0 ≤ pos) :
    (argv.foldl (spacepasteStep buflen) (buf, pos)).1.length = buf.length ∧
    (argv.foldl (spacepasteStep buflen) (buf, pos)).1.drop buflen.toNat
      = buf.drop buflen.toNat ∧
    0 ≤ (argv.foldl (spacepasteStep buflen) (buf, pos)).2 := by
  induction argv generalizing buf pos with
  | nil => exact ⟨rfl, rfl, hpos⟩
  | cons a rest ih =>
    obtain ⟨e1, e2, e3⟩ := spacepasteStep_bounds buflen buf pos a hN hpos
    have := ih (spacepasteStep buflen (buf, pos) a).1 (spacepasteStep buflen (buf, pos) a).2
      (by rw [e1]; exact hN) e3
    simp only [List.foldl_cons]
    obtain ⟨g1, g2, g3⟩ := this
    exact ⟨by rw [g1, e1], by rw [g2, e2], g3⟩

/-- Nothing is written at or beyond index `buflen`: whatever the arguments and
`argc`, `spacepaste` leaves the length of the buffer and every byte from index
`buflen` on as they were. -/
theorem spacepaste_in_bounds (buf : Bytes) (buflen : Int) (argv : List Bytes) (argc : Int)
    (hN : buflen.toNat ≤ buf.length) :
    (spacepaste buf buflen argv argc).2.length = buf.length ∧
    (spacepaste buf buflen argv argc).2.drop buflen.toNat = buf.drop buflen.toNat := by
  obtain ⟨e1, e2, e3⟩ :=
    spacepaste_loop_bounds buflen (argv.take argc.toNat) buf 0 hN (le_refl _)
  unfold spacepaste
  simp only []
  split_ifs with h
  · exact ⟨by rw [List.length_set, e1], by rw [set_drop _ _ _ _ (by omega), e2]⟩
  · exact ⟨e1, e2⟩

/-- What the loop of `spacepaste` puts together holds every argument whole and
in order, each with nothing or one space in front of it. -/
theorem pastedFrom_covers (acc : Bytes) (argv : List Bytes) :
    ∃ seps : List Bytes, seps.length = argv.length ∧
      (∀ s ∈ seps, s = [] ∨ s = [' ']) ∧
      pastedFrom acc argv = acc ++ (List.zipWith (fun s a => s ++ a) seps argv).flatten := by
  induction argv generalizing acc with
  | nil => exact ⟨[], rfl, by simp, by simp [pastedFrom]⟩
  | cons a rest ih =>
    obtain ⟨seps, h1, h2, h3⟩ := ih ((if acc.length > 0 then acc ++ [' '] else acc) ++ a)
    have hstep : pastedFrom acc (a :: rest) =
        pastedFrom ((if acc.length > 0 then acc ++ [' '] else acc) ++ a) rest := rfl
    by_cases hpos : acc.length > 0
    · refine ⟨[' '] :: seps, by simp [h1], ?_, ?_⟩
      · intro s hs
        rcases List.mem_cons.1 hs with h | h
        · exact Or.inr h
        · exact h2 s h
      · rw [hstep, h3]
        simp [hpos]
    · refine ⟨[] :: seps, by simp [h1], ?_, ?_⟩
      · intro s hs
        rcases List.mem_cons.1 hs with h | h
        · exact Or.inl h
        · exact h2 s h
      · rw [hstep, h3]
        simp [hpos]

/-- `spacepaste` fails exactly when what its loop puts together, with the
terminator, does not fit in `buflen` bytes. -/
theorem spacepaste_fails_iff (buf : Bytes) (buflen : Int) (argv : List Bytes)
    (hlen : buf.length = buflen.toNat) :
    (spacepaste buf buflen argv argv.length).1 < 0 ↔
      buflen < ((pasted argv).length : Int) + 1 := by
  obtain ⟨h1, h2⟩ := spacepaste_builds buf buflen argv hlen
  constructor
  · intro hneg
    by_contra hcon
    have := (h1 (by omega)).1
    omega
  · intro h
    rw [h2 (by omega)]
    decide

/-- Unless the first argument is empty, `spacepaste` fails exactly when the
arguments joined with single spaces, with the terminator, do not fit in
`buflen` bytes. -/
theorem spacepaste_fails_iff_joined (buf : Bytes) (buflen : Int) (argv : List Bytes)
    (hlen : buf.length = buflen.toNat) (h : argv.head? ≠ some []) :
    (spacepaste buf buflen argv argv.length).1 < 0 ↔
      buflen < ((spaceJoined argv).length : Int) + 1 := by
  rw [spacepaste_fails_iff buf buflen argv hlen, pasted_eq_spaceJoined argv h]

/-- C11, evaluated where the code departs from it.  For the two arguments `""`
and `"ls"` and a buffer of 3 bytes, the arguments joined with one space between
them are ` ls`, which with its terminator needs 4 bytes and does not fit; yet
`spacepaste` succeeds, returning 2 with `ls` and the terminator in the buffer.
The cause is the one of C10: no space is put after a leading empty argument. -/
theorem spacepaste_succeeds_when_joined_does_not_fit :
    spacepaste (List.replicate 3 '#') 3 [[], "ls".toList] 2 =
      (2, "ls".toList ++ [Char.ofNat 0]) ∧
    spaceJoined [[], "ls".toList] = " ls".toList ∧
    (3 : Int) < ((spaceJoined [[], "ls".toList]).length : Int) + 1 := by
  decide

/-! ## `time_emit`: the claims -/

/-- After the first call, `time_emit` writes the time line and then the elapsed
line for `max 0 (t - tstart)` microseconds, and leaves `tstart` as it was. -/
theorem time_emit_elapsed (tstart : Int) (f1 f2 : Stream) (eol : Bytes) (c : Clock) :
    time_emit tstart f1 f2 false true eol c none =
      (tstart, demit f1 f2 ("TIME: ".toList ++ c.stamp ++ eol)
        ++ demit f1 f2 (elapsedLine (max 0 (c.t - tstart)) eol)) := by
  have hdt : (if c.t < tstart then 0 else c.t - tstart) = max 0 (c.t - tstart) := by
    split_ifs with h
    · rw [max_eq_left (by omega)]
    · rw [max_eq_right (by omega)]
  simp only [time_emit, Bool.false_eq_true, if_false, hdt, elapsedLine, List.append_nil]

/-- The number printed after the point is at most 1000, and it is 1000 exactly
when the microseconds within the second are 999500 or more; below that, the
seconds and the fraction together are the elapsed time rounded to the nearest
millisecond. -/
theorem elapsed_fraction (dt : Int) (h0 : 0 ≤ dt) (hbig : dt < 4294967296000000) :
    toUnsigned (Int.tdiv (Int.tmod dt 1000000 + 500) 1000) ≤ 1000 ∧
    (toUnsigned (Int.tdiv (Int.tmod dt 1000000 + 500) 1000) = 1000 ↔
      999500 ≤ dt % 1000000) ∧
    (dt % 1000000 < 999500 →
      (toUnsigned (Int.tdiv dt 1000000) : Int) * 1000
        + (toUnsigned (Int.tdiv (Int.tmod dt 1000000 + 500) 1000) : Int)
        = (dt + 500) / 1000) := by
  have hm : Int.tmod dt 1000000 = dt % 1000000 := Int.tmod_eq_emod h0 (by decide)
  have hd : Int.tdiv dt 1000000 = dt / 1000000 := Int.tdiv_eq_ediv h0 (by decide)
  have hr0 : 0 ≤ dt % 1000000 := Int.emod_nonneg _ (by decide)
  have hr1 : dt % 1000000 < 1000000 := Int.emod_lt_of_pos _ (by decide)
  have hf : Int.tdiv (dt % 1000000 + 500) 1000 = (dt % 1000000 + 500) / 1000 :=
    Int.tdiv_eq_ediv (by omega) (by decide)
  rw [hm, hd, hf]
  unfold toUnsigned
  refine ⟨by omega, by omega, ?_⟩
  intro hlt
  omega

/-- C13, evaluated where the code departs from it.  For an elapsed time of
1999600 microseconds (start 0, now 1999600) `time_emit` writes
`ELAPSED TIME:  1.1000 sec`: the fraction has rounded up to 1000, is printed
with four digits and is not carried into the seconds, where the value rounded
to the nearest millisecond is 2.000. -/
theorem elapsed_fraction_not_carried :
    (time_emit 0 .stderr .fp false true "\n".toList ⟨1999600, "now".toList⟩ none).2 =
      [Ev.write .stderr none "TIME: now\n".toList,
       Ev.write .fp none "TIME: now\n".toList,
       Ev.write .stderr none "ELAPSED TIME:  1.1000 sec\n".toList,
       Ev.write .fp none "ELAPSED TIME:  1.1000 sec\n".toList] ∧
    max 0 ((1999600 : Int) - 0) = 1999600 ∧
    ((1999600 : Int) + 500) / 1000 = 2000 := by
  decide

/-! ## `mkfile`: the claims -/

theorem toDigitsCore_append (b f n : Nat) (ds : List Char) :
    Nat.toDigitsCore b f n ds = Nat.toDigitsCore b f n [] ++ ds := by
  induction f generalizing n ds with
  | zero => simp [Nat.toDigitsCore]
  | succ f ih =>
    simp only [Nat.toDigitsCore]
    split_ifs
    · simp
    · rw [ih (n / b) (Nat.digitChar (n % b) :: ds), ih (n / b) [Nat.digitChar (n % b)]]
      simp

theorem toDigitsCore_fuel (f f' n : Nat) (h : n < f) (h' : n < f') :
    Nat.toDigitsCore 10 f n [] = Nat.toDigitsCore 10 f' n [] := by
  induction f generalizing f' n with
  | zero => omega
  | succ f ih =>
    cases f' with
    | zero => omega
    | succ f' =>
      simp only [Nat.toDigitsCore]
      split_ifs with h0
      · rfl
      · rw [toDigitsCore_append 10 f, toDigitsCore_append 10 f',
          ih f' (n / 10) (by omega) (by omega)]

theorem toDigits_small (n : Nat) (h : n < 10) : Nat.toDigits 10 n = [Nat.digitChar n] := by
  have h0 : n / 10 = 0 := by omega
  have h1 : n % 10 = n := by omega
  simp [Nat.toDigits, Nat.toDigitsCore, h0, h1]

theorem toDigits_step (n : Nat) (h : 10 ≤ n) :
    Nat.toDigits 10 n = Nat.toDigits 10 (n / 10) ++ [Nat.digitChar (n % 10)] := by
  have h0 : ¬ n / 10 = 0 := by omega
  have e : Nat.toDigitsCore 10 (n + 1) n [] =
      Nat.toDigitsCore 10 n (n / 10) [Nat.digitChar (n % 10)] := by
    rw [Nat.toDigitsCore]
    simp [h0]
  show Nat.toDigitsCore 10 (n + 1) n [] =
    Nat.toDigitsCore 10 (n / 10 + 1) (n / 10) [] ++ [Nat.digitChar (n % 10)]
  rw [e, toDigitsCore_append 10 n,
    toDigitsCore_fuel n (n / 10 + 1) (n / 10) (by omega) (by omega)]

theorem digitChar_props (k : Nat) (h : k < 10) :
    (Nat.digitChar k).isDigit = true ∧ (Nat.digitChar k).toNat = 48 + k := by
  interval_cases k <;> decide

theorem fmtU_eq (n : Nat) : fmtU n = Nat.toDigits 10 n := rfl

theorem digitsValue_append (a : Bytes) (c : Char) :
    digitsValue (a ++ [c]) = digitsValue a * 10 + (c.toNat - 48) := by
  simp [digitsValue, List.foldl_append]

/-- The decimal digits of `n` are digits, and stand for `n`. -/
theorem toDigits_props (n : Nat) :
    (∀ c ∈ Nat.toDigits 10 n, c.isDigit = true) ∧ digitsValue (Nat.toDigits 10 n) = n ∧
    Nat.toDigits 10 n ≠ [] := by
  induction n using Nat.strong_induction_on with
  | _ n ih =>
    by_cases h : n < 10
    · rw [toDigits_small n h]
      obtain ⟨h1, h2⟩ := digitChar_props n h
      refine ⟨by simpa using h1, ?_, by simp⟩
      simp [digitsValue, h2]
    · rw [toDigits_step n (by omega)]
      obtain ⟨g1, g2, _⟩ := ih (n / 10) (by omega)
      obtain ⟨h1, h2⟩ := digitChar_props (n % 10) (by omega)
      refine ⟨?_, ?_, by simp⟩
      · intro c hc
        rcases List.mem_append.1 hc with hc | hc
        · exact g1 c hc
        · rw [List.mem_singleton.1 hc]; exact h1
      · rw [digitsValue_append, g2, h2]
        omega

theorem isDigit_not_special (c : Char) (h : c.isDigit = true) :
    isspace c = false ∧ c ≠ '-' ∧ c ≠ '+' := by
  refine ⟨?_, ?_, ?_⟩
  · by_contra hs
    have hs' : isspace c = true := by simpa using hs
    simp only [isspace, Bool.or_eq_true, beq_iff_eq] at hs'
    rcases hs' with ((((hc | hc) | hc) | hc) | hc) | hc <;> subst hc <;> exact absurd h (by decide)
  · intro hc; subst hc; exact absurd h (by decide)
  · intro hc; subst hc; exact absurd h (by decide)

/-- On a non-empty string of digits whose value is in range, `strtoul` gives
that value. -/
theorem strtoul_digits (U : Nat) (ds : Bytes) (hd : ∀ c ∈ ds, c.isDigit = true)
    (hne : ds ≠ []) (hle : digitsValue ds ≤ U) : strtoul U ds = digitsValue ds := by
  cases ds with
  | nil => exact absurd rfl hne
  | cons c rest =>
    obtain ⟨h1, h2, h3⟩ := isDigit_not_special c (hd c (List.mem_cons_self _ _))
    have hdrop : (c :: rest).dropWhile isspace = c :: rest := by
      simp [List.dropWhile, h1]
    have htake : (c :: rest).takeWhile Char.isDigit = c :: rest := by
      rw [List.takeWhile_eq_self_iff]
      exact hd
    have hmatch : (match c :: rest with
        | '-' :: r => r
        | '+' :: r => r
        | _ => c :: rest) = c :: rest := by
      split
      · rename_i heq
        exact absurd (List.cons.inj heq).1 h2
      · rename_i heq
        exact absurd (List.cons.inj heq).1 h3
      · rfl
    have hhead : ¬ ((c :: rest).head? = some '-') := by
      simpa using h2
    unfold strtoul
    simp only [hdrop, hmatch, htake]
    rw [if_neg (by simp), if_neg (by omega), if_neg hhead]

theorem digitsValue_zeros (k : Nat) (l : Bytes) :
    digitsValue (List.replicate k '0' ++ l) = digitsValue l := by
  induction k with
  | zero => rfl
  | succ k ih =>
    have : digitsValue (List.replicate (k + 1) '0' ++ l)
        = digitsValue (List.replicate k '0' ++ l) := by
      simp [digitsValue, List.replicate_succ]
    rw [this, ih]

/-- The text `%02lu` makes of `n` is made of digits and stands for `n`. -/
theorem fmt02u_props (n : Nat) :
    (∀ c ∈ fmt02u n, c.isDigit = true) ∧ digitsValue (fmt02u n) = n ∧ fmt02u n ≠ [] := by
  obtain ⟨h1, h2, h3⟩ := toDigits_props n
  unfold fmt02u
  rw [fmtU_eq]
  refine ⟨?_, ?_, ?_⟩
  · intro c hc
    rcases List.mem_append.1 hc with hc | hc
    · rw [(List.mem_replicate.1 hc).2]; decide
    · exact h1 c hc
  · rw [digitsValue_zeros, h2]
  · intro hc
    exact h3 (List.append_eq_nil.1 hc).2

/-- Reading back with `strtoul` the index that `%02lu` printed gives the index. -/
theorem strtoul_fmt02u (U n : Nat) (h : n ≤ U) : strtoul U (fmt02u n) = n := by
  obtain ⟨h1, h2, h3⟩ := fmt02u_props n
  rw [strtoul_digits U (fmt02u n) h1 h3 (by rw [h2]; exact h), h2]

theorem fmt02u_injective (a b : Nat) (h : fmt02u a = fmt02u b) : a = b := by
  have ha := (fmt02u_props a).2.1
  have hb := (fmt02u_props b).2.1
  rw [h] at ha
  omega

theorem mkfileName_injective (pfx : Bytes) (a b : Nat)
    (h : mkfileName pfx a = mkfileName pfx b) : a = b :=
  fmt02u_injective a b (List.append_cancel_left h)

theorem mem_countedNumbers (U : Nat) (pfx : Bytes) (entries : List Bytes) (nf : Nat) :
    nf ∈ countedNumbers U pfx entries ↔
      ∃ e ∈ entries, pfx.isPrefixOf e = true ∧ strtoul U (e.drop pfx.length) = nf ∧ nf ≠ U := by
  simp only [countedNumbers, List.mem_filter, List.mem_map, decide_eq_true_eq]
  constructor
  · rintro ⟨⟨e, ⟨he, hp⟩, hs⟩, hne⟩
    exact ⟨e, he, hp, hs, hne⟩
  · rintro ⟨e, he, hp, hs, hne⟩
    exact ⟨⟨e, ⟨he, hp⟩, hs⟩, hne⟩

/-- The index after the loop: at least the index before, above every counted
number, and either the index before or one more than a counted number. -/
theorem mkfile_loop (U : Nat) (pfx : Bytes) (entries : List Bytes) (n0 : Nat) :
    n0 ≤ entries.foldl (mkfileStep U pfx) n0 ∧
    (∀ nf ∈ countedNumbers U pfx entries, nf < entries.foldl (mkfileStep U pfx) n0) ∧
    (entries.foldl (mkfileStep U pfx) n0 = n0 ∨
      ∃ nf ∈ countedNumbers U pfx entries, entries.foldl (mkfileStep U pfx) n0 = nf + 1) := by
  induction entries generalizing n0 with
  | nil => simp [countedNumbers]
  | cons e rest ih =>
    obtain ⟨h1, h2, h3⟩ := ih (mkfileStep U pfx n0 e)
    simp only [List.foldl_cons]
    have hstep : n0 ≤ mkfileStep U pfx n0 e := by
      unfold mkfileStep
      split_ifs with hp hc
      · omega
      · exact le_refl _
      · exact le_refl _
    have hsub : ∀ nf ∈ countedNumbers U pfx rest, nf ∈ countedNumbers U pfx (e :: rest) := by
      intro nf hnf
      rw [mem_countedNumbers] at hnf ⊢
      obtain ⟨e', he', hrest⟩ := hnf
      exact ⟨e', List.mem_cons_of_mem _ he', hrest⟩
    refine ⟨le_trans hstep h1, ?_, ?_⟩
    · intro nf hnf
      rw [mem_countedNumbers] at hnf
      obtain ⟨e', he', hp, hs, hne⟩ := hnf
      rcases List.mem_cons.1 he' with rfl | hmem
      · have : nf < mkfileStep U pfx n0 e' := by
          unfold mkfileStep
          rw [if_pos hp, hs]
          split_ifs with hc
          · omega
          · have : ¬ nf ≥ n0 := fun hge => hc ⟨hne, hge⟩
            omega
        omega
      · exact h2 nf ((mem_countedNumbers U pfx rest nf).2 ⟨e', hmem, hp, hs, hne⟩)
    · rcases h3 with h3 | ⟨nf, hnf, h3⟩
      · rw [h3]
        unfold mkfileStep
        split_ifs with hp hc
        · right
          refine ⟨strtoul U (e.drop pfx.length), ?_, rfl⟩
          rw [mem_countedNumbers]
          exact ⟨e, List.mem_cons_self _ _, hp, rfl, hc.1⟩
        · exact Or.inl rfl
        · exact Or.inl rfl
      · exact Or.inr ⟨nf, hsub nf hnf, h3⟩

theorem isPrefixOf_append (pfx rest : Bytes) : pfx.isPrefixOf (pfx ++ rest) = true := by
  rw [List.isPrefixOf_iff_prefix]
  exact List.prefix_append _ _

/-- C12 as stated fails.  A file of the day whose number overflows is read by
`strtoul` as `ULONG_MAX` and passed over, so the index chosen is 1 and not one
more than the highest number read.  And with the files of the day numbered
`ULONG_MAX - 1` and `ULONG_MAX` the index chosen is `ULONG_MAX`: the name
chosen is that of a file already in the directory, and `mkfile` fails. -/
theorem mkfile_index_counterexample :
    dayPrefix = "Out_251030_".toList ∧
    (∃ e ∈ listingOverflow, dayPrefix.isPrefixOf e = true ∧
      strtoul ulongMax64 (e.drop dayPrefix.length) = ulongMax64) ∧
    mkfileIndex ulongMax64 dayPrefix listingOverflow = 1 ∧
    mkfileIndex ulongMax64 dayPrefix listingTop = ulongMax64 ∧
    mkfileName dayPrefix (mkfileIndex ulongMax64 dayPrefix listingTop) ∈ listingTop ∧
    mkfile ulongMax64 "logs".toList 125 9 30 listingTop = none := by
  refine ⟨by decide, ⟨_, List.mem_singleton.2 rfl, by decide, by decide⟩, by decide, by decide,
    by decide, by decide⟩

/-- C12, amended.  `mkfile` passes over the entries whose number `strtoul`
reads as `ULONG_MAX`.  It chooses index 1 when no entry begins with the day's
prefix, and also when no number is counted; otherwise it chooses one more than
the highest counted number.  Whenever the chosen index is below `ULONG_MAX`,
the chosen name is different from every name in the directory, and a run on the
same day against any directory that holds that name chooses a higher index and
a different name. -/
theorem mkfile_index (U : Nat) (pfx : Bytes) (entries : List Bytes) :
    ((∀ e ∈ entries, pfx.isPrefixOf e = false) → mkfileIndex U pfx entries = 1) ∧
    (countedNumbers U pfx entries = [] → mkfileIndex U pfx entries = 1) ∧
    (countedNumbers U pfx entries ≠ [] →
      ∃ nf ∈ countedNumbers U pfx entries,
        (∀ m ∈ countedNumbers U pfx entries, m ≤ nf) ∧
        mkfileIndex U pfx entries = nf + 1) ∧
    (mkfileIndex U pfx entries < U →
      mkfileName pfx (mkfileIndex U pfx entries) ∉ entries) ∧
    (mkfileIndex U pfx entries < U →
      ∀ entries', mkfileName pfx (mkfileIndex U pfx entries) ∈ entries' →
        mkfileIndex U pfx entries < mkfileIndex U pfx entries' ∧
        mkfileName pfx (mkfileIndex U pfx entries')
          ≠ mkfileName pfx (mkfileIndex U pfx entries)) ∧
    (∀ (dir : Bytes) (tm_year tm_mon tm_mday : Int) (path : Bytes),
      mkfilePrefix tm_year tm_mon tm_mday = pfx →
      mkfile U dir tm_year tm_mon tm_mday entries = some path →
        path = dir ++ "/".toList ++ mkfileName pfx (mkfileIndex U pfx entries) ∧
        mkfileName pfx (mkfileIndex U pfx entries) ∉ entries) := by
  obtain ⟨h1, h2, h3⟩ := mkfile_loop U pfx entries 1
  have key : ∀ (l : List Bytes) (n : Nat), n < U → mkfileName pfx n ∈ l →
      n < mkfileIndex U pfx l := by
    intro l n hn hmem
    apply (mkfile_loop U pfx l 1).2.1
    rw [mem_countedNumbers]
    refine ⟨mkfileName pfx n, hmem, isPrefixOf_append _ _, ?_, by omega⟩
    unfold mkfileName
    rw [List.drop_left, strtoul_fmt02u U n (by omega)]
  have hnil : countedNumbers U pfx entries = [] → mkfileIndex U pfx entries = 1 := by
    intro hc
    rcases h3 with h | ⟨nf, hnf, _⟩
    · exact h
    · rw [hc] at hnf
      simp at hnf
  refine ⟨?_, hnil, ?_, ?_, ?_, ?_⟩
  · intro hno
    apply hnil
    rw [List.eq_nil_iff_forall_not_mem]
    intro nf hnf
    rw [mem_countedNumbers] at hnf
    obtain ⟨e, he, hp, _⟩ := hnf
    rw [hno e he] at hp
    exact Bool.noConfusion hp
  · intro hne
    rcases h3 with h | ⟨nf, hnf, h⟩
    · obtain ⟨nf, hnf⟩ := List.exists_mem_of_ne_nil _ hne
      have hlt := h2 nf hnf
      have h' : mkfileIndex U pfx entries = 1 := h
      have h'' : List.foldl (mkfileStep U pfx) 1 entries = 1 := h
      refine ⟨nf, hnf, ?_, ?_⟩
      · intro m hm
        have := h2 m hm
        omega
      · omega
    · refine ⟨nf, hnf, ?_, h⟩
      intro m hm
      have := h2 m hm
      omega
  · intro hlt hmem
    have := key entries _ hlt hmem
    omega
  · intro hlt entries' hmem
    have hgt := key entries' _ hlt hmem
    refine ⟨hgt, ?_⟩
    intro heq
    have := mkfileName_injective pfx _ _ heq
    omega
  · intro dir y m d path hpfx hsome
    unfold mkfile at hsome
    rw [hpfx] at hsome
    simp only [] at hsome
    split_ifs at hsome with g1 g2 g3
    refine ⟨?_, g3⟩
    rw [← Option.some.inj hsome]
    simp [mkfileName]

/-- The amended C12 on a directory with the files `Out_251030_01` and
`Out_251030_07.log`: the index is 8 and `Out_251030_08` is a new name. -/
theorem mkfile_index_witness :
    mkfileIndex ulongMax64 dayPrefix listingPlain = 8 ∧
    mkfileName dayPrefix (mkfileIndex ulongMax64 dayPrefix listingPlain) ∉ listingPlain ∧
    mkfile ulongMax64 "logs".toList 125 9 30 listingPlain = some "logs/Out_251030_08".toList :=
  have h := mkfile_index ulongMax64 dayPrefix listingPlain
  ⟨by decide, h.2.2.2.1 (by decide), by decide⟩

end Logrun
